import Mathlib

/-!
Verification of python-memtools (a post-mortem memory analyzer for Python
processes) against its natural-language specification.

The definitions below are a shallow embedding of the C++ sources:
`MemoryReader` / `MappedPtr` (MemoryReader.hh / MemoryReader.cc), the
catalog-building queries `find_base_type_object` / `find_all_type_objects`
and the `async-task-graph` query (AnalysisShell.cc), `PyFrameObject`
(Types/PyFrameObject.cc) and `PySetObject` (Types/PySetObject.cc).

Machine integers (`uint64_t` / `size_t`) are modelled as `Nat` with explicit
wrap-around (`% 2^64`) at the points where the C++ arithmetic can wrap.
Fallible operations (C++ `throw std::out_of_range`) return `Except String`
or `Option`.
-/

namespace Memtools

/-- The modulus of 64-bit machine arithmetic. -/
def U64 : Nat := 2 ^ 64

/-- Wrap a value to 64 bits, as every `uint64_t` addition in the source does. -/
def addr64 (a : Nat) : Nat := a % U64

/-- 64-bit unsigned subtraction `a - b` with wrap-around, as computed by
`MappedPtr::bytes_until` and by `region_start_offsets[...] - object_size`. -/
def usub64 (a b : Nat) : Nat := (a + U64 - b % U64) % U64

/-- A snapshot region: a `MemoryMappedFile::View`. `start` is the mapped
(`MappedPtr`) address, `size` the byte count, and `data` the backing file's
bytes for the region. -/
structure Region where
  start : Nat
  size : Nat
  data : List Nat
deriving Repr, DecidableEq

/-- `MemoryReader::find_region_by_mapped_addr`: `regions_by_mapped` is an
ordered map keyed by region start, so `upper_bound(addr)` followed by `it--`
yields the region with the greatest start `≤ addr` (the last such region in
the sorted region list); the end-of-region check
`it->second.addr.offset_bytes(it->second.size) <= addr` (which wraps the end
address to 64 bits) then rejects addresses past the region end.
`none` models `throw std::out_of_range`. -/
def findRegionByMappedAddr (regions : List Region) (addr : Nat) : Option Region :=
  match (regions.filter (fun r => r.start ≤ addr)).getLast? with
  | none => none
  | some r => if addr64 (r.start + r.size) ≤ addr then none else some r

/-- `MemoryReader::exists` (never throws). -/
def existsAddr (regions : List Region) (addr : Nat) : Bool :=
  (findRegionByMappedAddr regions addr).isSome

/-- `MemoryReader::exists_range`: finds the enclosing region and checks
`rgn.addr.bytes_until(addr.offset_bytes(size)) <= rgn.size`, where
`offset_bytes` and `bytes_until` are 64-bit wrap-around operations. -/
def existsRange (regions : List Region) (addr size : Nat) : Bool :=
  match findRegionByMappedAddr regions addr with
  | none => false
  | some r => usub64 (addr64 (addr + size)) r.start ≤ r.size

/-- `MemoryReader::read`: computes `offset = rgn.addr.bytes_until(addr)` and
throws when `offset + size > rgn.size || offset + size < offset` (the second
disjunct catches 64-bit wrap of `offset + size`); on success it yields the
`size` bytes of the backing file at that offset. -/
def readMem (regions : List Region) (addr size : Nat) : Except String (List Nat) :=
  match findRegionByMappedAddr regions addr with
  | none => Except.error "Address not within any block"
  | some r =>
    let offset := usub64 addr r.start
    if addr64 (offset + size) > r.size ∨ addr64 (offset + size) < offset then
      Except.error "Read size extends beyond end of region"
    else
      Except.ok ((r.data.drop offset).take size)

/-- `MemoryReader::obj_valid`:
`(addr.addr != 0) && !(addr.addr & (alignment - 1)) && exists_range(addr, sizeof(SizeType))`.
`szT` is `sizeof(SizeType)`; `alignment - 1` is 64-bit (wrapping) subtraction. -/
def objValid (regions : List Region) (addr alignment szT : Nat) : Bool :=
  addr != 0 && (addr &&& usub64 alignment 1) == 0 && existsRange regions addr szT

/-- `MemoryReader::obj_valid_or_null`, exactly as written in the source:
`(addr.addr == 0) || !((addr.addr & (alignment - 1)) && exists_range(addr, sizeof(SizeType)))`.
Note the placement of `!`: it negates the conjunction of the alignment test
and the range test. -/
def objValidOrNull (regions : List Region) (addr alignment szT : Nat) : Bool :=
  addr == 0 || !((addr &&& usub64 alignment 1) != 0 && existsRange regions addr szT)

/-- A one-region snapshot used by several concrete evaluations below: one
mapped region covering addresses `[0x1000, 0x3000)`. -/
def pageSnapshot : List Region :=
  [⟨0x1000, 0x2000, List.replicate 0x2000 0⟩]

/-! ## The parallel scanner (`MemoryReader::map_all_addresses`)

The scanner concatenates all regions into one global offset space
(`region_start_offsets`), tiles it into blocks of `0x1000` bytes consumed by
`current_offset.fetch_add(block_stride)`, and within each block walks offsets
spaced by `stride`, invoking the predicate while
`offset + z <= region_start_offsets[cr + 1] - object_size`.

Each block value is fetched exactly once no matter how the threads
interleave, and `current_region` for a block with start `b` always ends up
at the least region index `cr` with `b < region_start_offsets[cr + 1]`
(the index only moves forward, and every earlier index was already rejected
for a smaller offset).  The embedding therefore processes blocks in
increasing order and recomputes that least index per block; the list it
returns is the multiset of addresses the predicate is invoked on. -/

/-- The fixed block size `block_stride = 0x1000`. -/
def blockStride : Nat := 0x1000

/-- `region_start_offsets[i]`: the sum of the sizes of the first `i` regions. -/
def cumAt (regions : List Region) (i : Nat) : Nat :=
  ((regions.take i).map Region.size).sum

/-- The region index the `while (offset >= region_start_offsets[current_region + 1])
current_region++` loop settles on for a block starting at global offset `b`:
the least `i` with `b < region_start_offsets[i + 1]`. -/
def findRegionIdx (regions : List Region) (b : Nat) : Nat :=
  match regions with
  | [] => 0
  | r :: rest => if b < r.size then 0 else findRegionIdx rest (b - r.size) + 1

/-- The inner loop `for (z = 0; z < block_stride; z += stride)`: `fuel` is the
remaining iteration budget `(block_stride - z) / stride`; the loop breaks when
`offset + z > region_start_offsets[cr + 1] - object_size` (64-bit compare,
`limit` being that wrapped subtraction) and otherwise invokes the predicate at
`addr.offset_bytes(z)`. -/
def scanBlockZ (base b limit stride : Nat) : Nat → Nat → List Nat
  | 0, _ => []
  | fuel + 1, z =>
    if addr64 (b + z) > limit then []
    else addr64 (base + z) :: scanBlockZ base b limit stride fuel (z + stride)

/-- One block of the scan: find the block's region, check
`offset <= region_start_offsets[current_region + 1] - object_size` (wrapping
64-bit subtraction), and walk the block. `base` is
`regions[cr].first.offset_bytes(offset_within_region)`. -/
def scanBlock (regions : List Region) (stride objectSize b : Nat) : List Nat :=
  if b ≤ usub64 (cumAt regions (findRegionIdx regions b + 1)) objectSize then
    scanBlockZ
      (addr64 ((regions.getD (findRegionIdx regions b) ⟨0, 0, []⟩).start
        + (b - cumAt regions (findRegionIdx regions b))))
      b
      (usub64 (cumAt regions (findRegionIdx regions b + 1)) objectSize)
      stride (blockStride / stride) 0
  else []

/-- `map_all_addresses` as the multiset (list) of addresses the predicate is
invoked on: all blocks `b = 0x1000 * k` with `b < region_start_offsets.back()`. -/
def scanAddrs (regions : List Region) (stride objectSize : Nat) : List Nat :=
  (List.range ((cumAt regions regions.length + blockStride - 1) / blockStride)).flatMap
    (fun k => scanBlock regions stride objectSize (blockStride * k))

/-- Two-region snapshot for the C2 counterexample: an 8-byte region at
`0x1000` followed by a `0x1000`-byte region at `0x10000`. -/
def c2Regions : List Region :=
  [⟨0x1000, 8, List.replicate 8 0⟩, ⟨0x10000, 0x1000, List.replicate 0x1000 0⟩]

lemma U64_pos : 0 < U64 := by unfold U64; positivity

lemma addr64_eq_of_lt {a : Nat} (h : a < U64) : addr64 a = a := Nat.mod_eq_of_lt h

lemma usub64_eq {a b : Nat} (hba : b ≤ a) (hb : b < U64) (hd : a - b < U64) :
    usub64 a b = a - b := by
  unfold usub64
  rw [Nat.mod_eq_of_lt hb]
  have h1 : a + U64 - b = (a - b) + U64 := by omega
  rw [h1, Nat.add_mod_right, Nat.mod_eq_of_lt hd]

/-- Proof helper: the number of iterations the inner scanner loop performs
when started at offset `z` with `fuel` iterations of budget left. -/
def zSteps (b limit stride fuel z : Nat) : Nat :=
  if b + z > limit then 0 else min fuel ((limit - (b + z)) / stride + 1)

lemma scanBlockZ_eq_map (base b limit stride : Nat) (hs : 0 < stride) :
    ∀ fuel z, b + z + fuel * stride ≤ U64 →
      scanBlockZ base b limit stride fuel z =
        (List.range (zSteps b limit stride fuel z)).map
          (fun j => addr64 (base + (z + j * stride)))
  | 0, z, _ => by
      unfold zSteps
      split <;> simp [scanBlockZ]
  | fuel + 1, z, hw => by
      have hmul : (fuel + 1) * stride = fuel * stride + stride := Nat.succ_mul fuel stride
      have hbz : b + z < U64 := by omega
      unfold scanBlockZ
      rw [addr64_eq_of_lt hbz]
      by_cases hgt : b + z > limit
      · rw [if_pos hgt]
        simp [zSteps, hgt]
      · push_neg at hgt
        rw [if_neg (by omega)]
        have hw2 : b + (z + stride) + fuel * stride ≤ U64 := by omega
        rw [scanBlockZ_eq_map base b limit stride hs fuel (z + stride) hw2]
        have hsteps : zSteps b limit stride (fuel + 1) z
            = zSteps b limit stride fuel (z + stride) + 1 := by
          unfold zSteps
          rw [if_neg (by omega)]
          by_cases h2 : b + (z + stride) > limit
          · rw [if_pos h2]
            have h0 : (limit - (b + z)) / stride = 0 := Nat.div_eq_of_lt (by omega)
            rw [h0]
            omega
          · rw [if_neg h2]
            have h3 : stride ≤ limit - (b + z) := by omega
            have hdiv : (limit - (b + z)) / stride
                = (limit - (b + (z + stride))) / stride + 1 := by
              rw [Nat.div_eq_sub_div hs h3]
              congr 2
              omega
            rw [hdiv]
            omega
        rw [hsteps, List.range_succ_eq_map, List.map_cons, List.map_map]
        congr 1
        · simp
        · apply List.map_congr_left
          intro j _
          simp only [Function.comp_apply, Nat.succ_mul, Nat.succ_eq_add_one]
          congr 1
          ring

lemma cumAt_zero (regions : List Region) : cumAt regions 0 = 0 := rfl

lemma cumAt_cons (r : Region) (rest : List Region) (i : Nat) :
    cumAt (r :: rest) (i + 1) = r.size + cumAt rest i := by
  simp [cumAt, List.take_succ_cons]

lemma cumAt_succ (regions : List Region) (i : Nat) (h : i < regions.length) :
    cumAt regions (i + 1) = cumAt regions i + regions[i].size := by
  unfold cumAt
  rw [List.map_take, List.map_take]
  have hl : i < (regions.map Region.size).length := by simpa using h
  rw [List.sum_take_succ (regions.map Region.size) i hl, List.getElem_map]

lemma cumAt_le_succ (regions : List Region) (i : Nat) :
    cumAt regions i ≤ cumAt regions (i + 1) := by
  by_cases h : i < regions.length
  · rw [cumAt_succ regions i h]
    omega
  · unfold cumAt
    rw [List.take_of_length_le (by omega), List.take_of_length_le (by omega)]

lemma cumAt_mono (regions : List Region) {i j : Nat} (hij : i ≤ j) :
    cumAt regions i ≤ cumAt regions j := by
  induction j with
  | zero =>
    have h0 : i = 0 := by omega
    subst h0
    exact Nat.le.refl
  | succ j ih =>
    rcases Nat.lt_or_ge i (j + 1) with h | h
    · exact Nat.le_trans (ih (by omega)) (cumAt_le_succ regions j)
    · have hi : i = j + 1 := by omega
      subst hi
      exact Nat.le.refl

lemma cumAt_dvd (regions : List Region) (d : Nat)
    (hblk : ∀ r ∈ regions, d ∣ r.size) (i : Nat) : d ∣ cumAt regions i := by
  apply List.dvd_sum
  intro x hx
  rcases List.mem_map.1 hx with ⟨r, hr, rfl⟩
  exact hblk r (List.mem_of_mem_take hr)

lemma findRegionIdx_spec :
    ∀ (regions : List Region) (b : Nat), b < cumAt regions regions.length →
      findRegionIdx regions b < regions.length ∧
      cumAt regions (findRegionIdx regions b) ≤ b ∧
      b < cumAt regions (findRegionIdx regions b + 1)
  | [], b, hb => by simp [cumAt] at hb
  | r :: rest, b, hb => by
      unfold findRegionIdx
      by_cases hlt : b < r.size
      · rw [if_pos hlt]
        refine ⟨by simp, by simp [cumAt_zero], ?_⟩
        rw [cumAt_cons]
        omega
      · rw [if_neg hlt]
        have htot : b - r.size < cumAt rest rest.length := by
          have := cumAt_cons r rest rest.length
          simp only [List.length_cons] at hb
          omega
        obtain ⟨h1, h2, h3⟩ := findRegionIdx_spec rest (b - r.size) htot
        refine ⟨by simpa using h1, ?_, ?_⟩
        · rw [cumAt_cons]
          omega
        · rw [cumAt_cons]
          omega

lemma findRegionIdx_eq (regions : List Region) {b i : Nat} (hi : i < regions.length)
    (h1 : cumAt regions i ≤ b) (h2 : b < cumAt regions (i + 1)) :
    findRegionIdx regions b = i := by
  have hb : b < cumAt regions regions.length :=
    Nat.lt_of_lt_of_le h2 (cumAt_mono regions (by omega))
  obtain ⟨g1, g2, g3⟩ := findRegionIdx_spec regions b hb
  rcases Nat.lt_trichotomy (findRegionIdx regions b) i with h | h | h
  · have := cumAt_mono regions (show findRegionIdx regions b + 1 ≤ i by omega)
    omega
  · exact h
  · have := cumAt_mono regions (show i + 1 ≤ findRegionIdx regions b by omega)
    omega

lemma start_sep (regions : List Region)
    (hsep : regions.Pairwise (fun r s => r.start + r.size ≤ s.start))
    {i j : Nat} (hi : i < regions.length) (hj : j < regions.length) (hij : i < j) :
    regions[i].start + regions[i].size ≤ regions[j].start :=
  (List.pairwise_iff_getElem.1 hsep) i j hi hj hij

lemma head_start_add_total :
    ∀ (rest : List Region) (r : Region),
      (r :: rest).Pairwise (fun r s => r.start + r.size ≤ s.start) →
      (∀ x ∈ r :: rest, x.start + x.size ≤ U64) →
      r.start + cumAt (r :: rest) (rest.length + 1) ≤ U64
  | [], r, _, hbound => by
      have hr := hbound r (by simp)
      simp only [List.length_nil]
      rw [cumAt_cons]
      simp only [cumAt_zero]
      omega
  | s :: tl, r, hsep, hbound => by
      have hpair : r.start + r.size ≤ s.start := (List.pairwise_cons.1 hsep).1 s (by simp)
      have ih := head_start_add_total tl s (List.pairwise_cons.1 hsep).2
        (fun x hx => hbound x (List.mem_cons_of_mem _ hx))
      simp only [List.length_cons] at ih ⊢
      rw [cumAt_cons]
      omega

lemma total_le_U64 (regions : List Region)
    (hsep : regions.Pairwise (fun r s => r.start + r.size ≤ s.start))
    (hbound : ∀ r ∈ regions, r.start + r.size ≤ U64) :
    cumAt regions regions.length ≤ U64 := by
  match regions with
  | [] =>
    simp only [List.length_nil, cumAt_zero]
    exact Nat.zero_le _
  | r :: rest =>
    have := head_start_add_total rest r hsep hbound
    simp only [List.length_cons]
    omega

lemma addr_decomp_unique (regions : List Region)
    (hsep : regions.Pairwise (fun r s => r.start + r.size ≤ s.start))
    {i j o p : Nat} (hi : i < regions.length) (hj : j < regions.length)
    (ho : o < regions[i].size) (hp : p < regions[j].size)
    (heq : regions[i].start + o = regions[j].start + p) : i = j ∧ o = p := by
  rcases Nat.lt_trichotomy i j with h | h | h
  · have := start_sep regions hsep hi hj h
    omega
  · subst h
    omega
  · have := start_sep regions hsep hj hi h
    omega

section ScanCoverage

variable (regions : List Region) (stride objectSize : Nat)
variable (hs : 0 < stride) (hsd : stride ∣ blockStride)
variable (hobj1 : 1 ≤ objectSize) (hobj2 : objectSize ≤ blockStride)
variable (hblk : ∀ r ∈ regions, blockStride ∣ r.size)
variable (hsep : regions.Pairwise (fun r s => r.start + r.size ≤ s.start))
variable (hbound : ∀ r ∈ regions, r.start + r.size ≤ U64)

include hs hsd hobj1 hobj2 hblk hsep hbound

lemma scanBlock_eq (b i : Nat) (hi : i < regions.length)
    (hbl : cumAt regions i ≤ b) (hbu : b < cumAt regions (i + 1))
    (hbdvd : blockStride ∣ b) :
    scanBlock regions stride objectSize b =
      (List.range (min (blockStride / stride)
          ((cumAt regions (i + 1) - objectSize - b) / stride + 1))).map
        (fun j => regions[i].start + (b - cumAt regions i) + j * stride) := by
  have hcr : findRegionIdx regions b = i := findRegionIdx_eq regions hi hbl hbu
  have htotU : cumAt regions regions.length ≤ U64 := total_le_U64 regions hsep hbound
  have hendtot : cumAt regions (i + 1) ≤ cumAt regions regions.length :=
    cumAt_mono regions (by omega)
  have hde : blockStride ∣ cumAt regions (i + 1) := cumAt_dvd regions blockStride hblk (i + 1)
  have hbbs : b + blockStride ≤ cumAt regions (i + 1) := by
    have hd : blockStride ∣ cumAt regions (i + 1) - b := Nat.dvd_sub' hde hbdvd
    have hpos : 0 < cumAt regions (i + 1) - b := by omega
    have := Nat.le_of_dvd hpos hd
    omega
  have hbsU : blockStride < U64 := by simp only [blockStride, U64]; norm_num
  have hobjle : objectSize ≤ cumAt regions (i + 1) := by omega
  have hlimU : cumAt regions (i + 1) - objectSize < U64 := by omega
  have husub : usub64 (cumAt regions (i + 1)) objectSize
      = cumAt regions (i + 1) - objectSize :=
    usub64_eq hobjle (by omega) hlimU
  have hcond : b ≤ usub64 (cumAt regions (i + 1)) objectSize := by omega
  have hsucc : cumAt regions (i + 1) = cumAt regions i + regions[i].size :=
    cumAt_succ regions i hi
  have hstartU : regions[i].start + regions[i].size ≤ U64 :=
    hbound regions[i] (List.getElem_mem hi)
  have hbaseU : regions[i].start + (b - cumAt regions i) < U64 := by omega
  have hfuel : blockStride / stride * stride = blockStride := Nat.div_mul_cancel hsd
  unfold scanBlock
  rw [hcr, husub, if_pos (show b ≤ cumAt regions (i + 1) - objectSize by omega)]
  rw [List.getD_eq_getElem regions ⟨0, 0, []⟩ hi]
  rw [addr64_eq_of_lt hbaseU]
  rw [scanBlockZ_eq_map _ b _ stride hs (blockStride / stride) 0 (by omega)]
  have hz : zSteps b (cumAt regions (i + 1) - objectSize) stride (blockStride / stride) 0
      = min (blockStride / stride) ((cumAt regions (i + 1) - objectSize - b) / stride + 1) := by
    unfold zSteps
    rw [if_neg (by omega)]
    simp only [Nat.add_zero]
  rw [hz]
  apply List.map_congr_left
  intro j hj
  rw [List.mem_range] at hj
  have hjq : j ≤ (cumAt regions (i + 1) - objectSize - b) / stride := by omega
  have hjs : j * stride ≤ cumAt regions (i + 1) - objectSize - b := by
    calc j * stride ≤ (cumAt regions (i + 1) - objectSize - b) / stride * stride :=
          Nat.mul_le_mul_right stride hjq
      _ ≤ cumAt regions (i + 1) - objectSize - b := Nat.div_mul_le_self _ _
  rw [addr64_eq_of_lt (by omega)]
  omega

lemma mem_scanBlock_decode (k : Nat)
    (hk : blockStride * k < cumAt regions regions.length) (a : Nat)
    (ha : a ∈ scanBlock regions stride objectSize (blockStride * k)) :
    ∃ i, ∃ hi : i < regions.length, ∃ o, o % stride = 0 ∧
      o + objectSize ≤ regions[i].size ∧ a = regions[i].start + o ∧
      blockStride * k ≤ cumAt regions i + o ∧
      cumAt regions i + o < blockStride * k + blockStride := by
  obtain ⟨b, hbdef⟩ : ∃ b, b = blockStride * k := ⟨_, rfl⟩
  rw [← hbdef] at hk ha ⊢
  have hbdvd : blockStride ∣ b := ⟨k, hbdef⟩
  obtain ⟨hilen, hbl, hbu⟩ := findRegionIdx_spec regions b hk
  obtain ⟨i, hidef⟩ : ∃ i, i = findRegionIdx regions b := ⟨_, rfl⟩
  rw [← hidef] at hilen hbl hbu
  rw [scanBlock_eq regions stride objectSize hs hsd hobj1 hobj2 hblk hsep hbound
    b i hilen hbl hbu hbdvd] at ha
  rw [List.mem_map] at ha
  obtain ⟨j, hj, rfl⟩ := ha
  rw [List.mem_range] at hj
  have hjf : j < blockStride / stride := by omega
  have hjq : j ≤ (cumAt regions (i + 1) - objectSize - b) / stride := by omega
  have hjs : j * stride ≤ cumAt regions (i + 1) - objectSize - b := by
    calc j * stride
        ≤ (cumAt regions (i + 1) - objectSize - b) / stride * stride :=
          Nat.mul_le_mul_right stride hjq
      _ ≤ _ := Nat.div_mul_le_self _ _
  have hjbs : j * stride < blockStride := by
    have h1 : (j + 1) * stride ≤ blockStride / stride * stride :=
      Nat.mul_le_mul_right stride hjf
    rw [Nat.div_mul_cancel hsd] at h1
    have h2 : (j + 1) * stride = j * stride + stride := Nat.succ_mul j stride
    omega
  have hsucc : cumAt regions (i + 1) = cumAt regions i + regions[i].size :=
    cumAt_succ regions i hilen
  have hde1 : blockStride ∣ cumAt regions (i + 1) :=
    cumAt_dvd regions blockStride hblk (i + 1)
  have hbbs : b + blockStride ≤ cumAt regions (i + 1) := by
    have hd : blockStride ∣ cumAt regions (i + 1) - b := Nat.dvd_sub' hde1 hbdvd
    have hpos : 0 < cumAt regions (i + 1) - b := by omega
    have := Nat.le_of_dvd hpos hd
    omega
  have hde : blockStride ∣ cumAt regions i := cumAt_dvd regions blockStride hblk i
  have hoff : stride ∣ b - cumAt regions i := by
    apply Nat.dvd_trans hsd
    exact Nat.dvd_sub' hbdvd hde
  refine ⟨i, hilen, b - cumAt regions i + j * stride, ?_, ?_, ?_, ?_, ?_⟩
  · obtain ⟨m, hm⟩ := hoff
    rw [hm, Nat.add_comm, Nat.add_mul_mod_self_left]
    exact Nat.mul_mod_left j stride
  · omega
  · omega
  · omega
  · omega

lemma mem_scanAddrs_iff (a : Nat) :
    a ∈ scanAddrs regions stride objectSize ↔
      ∃ i, ∃ hi : i < regions.length, ∃ o, o % stride = 0 ∧
        o + objectSize ≤ regions[i].size ∧ a = regions[i].start + o := by
  unfold scanAddrs
  rw [List.mem_flatMap]
  constructor
  · rintro ⟨k, hk, ha⟩
    rw [List.mem_range] at hk
    have hktot : blockStride * k < cumAt regions regions.length := by
      simp only [blockStride] at hk ⊢
      omega
    obtain ⟨i, hi, o, h1, h2, h3, _, _⟩ := mem_scanBlock_decode regions stride objectSize
      hs hsd hobj1 hobj2 hblk hsep hbound k hktot a ha
    exact ⟨i, hi, o, h1, h2, h3⟩
  · rintro ⟨i, hi, o, h1, h2, h3⟩
    have hsucc : cumAt regions (i + 1) = cumAt regions i + regions[i].size :=
      cumAt_succ regions i hi
    have hgtot : cumAt regions i + o < cumAt regions regions.length := by
      have h4 : cumAt regions (i + 1) ≤ cumAt regions regions.length :=
        cumAt_mono regions (by omega)
      omega
    have hbs0 : 0 < blockStride := by simp only [blockStride]; norm_num
    set g := cumAt regions i + o with hgdef
    have hdm := Nat.div_add_mod g blockStride
    have hml := Nat.mod_lt g hbs0
    set k := g / blockStride with hkdef
    have hbg : blockStride * k ≤ g := by omega
    have hgb : g < blockStride * k + blockStride := by omega
    have hde : blockStride ∣ cumAt regions i := cumAt_dvd regions blockStride hblk i
    have hcb : cumAt regions i ≤ blockStride * k := by
      obtain ⟨m, hm⟩ := hde
      have hmk : m ≤ k := by
        rw [Nat.le_div_iff_mul_le hbs0]
        rw [Nat.mul_comm]
        omega
      calc cumAt regions i = blockStride * m := hm
        _ ≤ blockStride * k := Nat.mul_le_mul_left blockStride hmk
    have hbu : blockStride * k < cumAt regions (i + 1) := by omega
    refine ⟨k, ?_, ?_⟩
    · rw [List.mem_range]
      have hklt : blockStride * k < cumAt regions regions.length := by omega
      simp only [blockStride] at hklt ⊢
      omega
    · rw [scanBlock_eq regions stride objectSize hs hsd hobj1 hobj2 hblk hsep hbound
        (blockStride * k) i hi hcb hbu (⟨k, rfl⟩)]
      rw [List.mem_map]
      have hoffd : stride ∣ blockStride * k - cumAt regions i := by
        apply Nat.dvd_trans hsd
        exact Nat.dvd_sub' (⟨k, rfl⟩) hde
      have hod : stride ∣ o := by
        rcases Nat.dvd_of_mod_eq_zero h1 with ⟨m, hm⟩
        exact ⟨m, hm⟩
      have hgbd : stride ∣ g - blockStride * k := by
        have hrw : g - blockStride * k = o - (blockStride * k - cumAt regions i) := by omega
        rw [hrw]
        exact Nat.dvd_sub' hod hoffd

      refine ⟨(g - blockStride * k) / stride, ?_, ?_⟩
      · rw [List.mem_range]
        have hjm : (g - blockStride * k) / stride * stride = g - blockStride * k :=
          Nat.div_mul_cancel hgbd
        have hglim : g ≤ cumAt regions (i + 1) - objectSize := by omega
        have hj1 : (g - blockStride * k) / stride < blockStride / stride := by
          have hlt : stride * ((g - blockStride * k) / stride)
              < stride * (blockStride / stride) := by
            rw [Nat.mul_comm stride, Nat.mul_comm stride, hjm, Nat.div_mul_cancel hsd]
            omega
          exact Nat.lt_of_mul_lt_mul_left hlt
        have hj2 : (g - blockStride * k) / stride
            ≤ (cumAt regions (i + 1) - objectSize - blockStride * k) / stride := by
          rw [Nat.le_div_iff_mul_le hs, hjm]
          omega
        omega
      · have hjm : (g - blockStride * k) / stride * stride = g - blockStride * k :=
          Nat.div_mul_cancel hgbd
        rw [hjm]
        omega

lemma scanAddrs_nodup : (scanAddrs regions stride objectSize).Nodup := by
  unfold scanAddrs
  rw [List.nodup_flatMap]
  constructor
  · intro k hk
    rw [List.mem_range] at hk
    have hktot : blockStride * k < cumAt regions regions.length := by
      simp only [blockStride] at hk ⊢
      omega
    obtain ⟨hilen, hbl, hbu⟩ := findRegionIdx_spec regions (blockStride * k) hktot
    rw [scanBlock_eq regions stride objectSize hs hsd hobj1 hobj2 hblk hsep hbound
      (blockStride * k) _ hilen hbl hbu (⟨k, rfl⟩)]
    apply List.Nodup.map ?_ (List.nodup_range _)
    intro j1 j2 hj
    dsimp only at hj
    have hj2 : j1 * stride = j2 * stride := by omega
    exact Nat.eq_of_mul_eq_mul_right hs hj2
  · refine List.Pairwise.imp_of_mem ?_ (List.pairwise_lt_range _)
    intro k1 k2 hm1 hm2 hlt
    intro a ha1 ha2
    rw [List.mem_range] at hm1 hm2
    have hk1 : blockStride * k1 < cumAt regions regions.length := by
      simp only [blockStride] at hm1 ⊢
      omega
    have hk2 : blockStride * k2 < cumAt regions regions.length := by
      simp only [blockStride] at hm2 ⊢
      omega
    obtain ⟨i1, hi1, o1, hm1, hs1, he1, hg1l, hg1u⟩ := mem_scanBlock_decode regions stride
      objectSize hs hsd hobj1 hobj2 hblk hsep hbound k1 hk1 a ha1
    obtain ⟨i2, hi2, o2, hm2, hs2, he2, hg2l, hg2u⟩ := mem_scanBlock_decode regions stride
      objectSize hs hsd hobj1 hobj2 hblk hsep hbound k2 hk2 a ha2
    have hdec := addr_decomp_unique regions hsep hi1 hi2
      (show o1 < regions[i1].size by omega) (show o2 < regions[i2].size by omega)
      (by omega)
    obtain ⟨hi12, ho12⟩ := hdec
    subst hi12
    have hk12 : k1 < k2 + 1 ∧ k2 < k1 + 1 := by
      constructor
      · apply Nat.lt_of_mul_lt_mul_left (show blockStride * k1 < blockStride * (k2 + 1) from ?_)
        have : blockStride * (k2 + 1) = blockStride * k2 + blockStride := by ring
        omega
      · apply Nat.lt_of_mul_lt_mul_left (show blockStride * k2 < blockStride * (k1 + 1) from ?_)
        have : blockStride * (k1 + 1) = blockStride * k1 + blockStride := by ring
        omega
    omega

end ScanCoverage

/-! ## Characterizing `find_region_by_mapped_addr` -/

lemma findRegion_spec {regions : List Region} {addr : Nat} {r : Region}
    (h : findRegionByMappedAddr regions addr = some r) :
    r ∈ regions ∧ r.start ≤ addr ∧ addr < addr64 (r.start + r.size) := by
  unfold findRegionByMappedAddr at h
  cases hg : (regions.filter (fun r => r.start ≤ addr)).getLast? with
  | none =>
    rw [hg] at h
    exact absurd h (by simp)
  | some s =>
    rw [hg] at h
    dsimp only at h
    by_cases hc : addr64 (s.start + s.size) ≤ addr
    · rw [if_pos hc] at h
      exact absurd h (by simp)
    · rw [if_neg hc] at h
      obtain rfl : s = r := by injection h
      have hmem : s ∈ regions.filter (fun r => r.start ≤ addr) :=
        List.mem_of_mem_getLast? hg
      rw [List.mem_filter] at hmem
      exact ⟨hmem.1, by simpa using hmem.2, by omega⟩

lemma findRegion_eq :
    ∀ (regions : List Region) (addr : Nat),
      regions.Pairwise (fun r s => r.start + r.size ≤ s.start) →
      (∀ x ∈ regions, x.start + x.size < U64) →
      ∀ r ∈ regions, r.start ≤ addr → addr < r.start + r.size →
        findRegionByMappedAddr regions addr = some r
  | [], addr, _, _, r, hr, _, _ => absurd hr (List.not_mem_nil r)
  | x :: rest, addr, hsep, hU, r, hr, h1, h2 => by
    rcases List.mem_cons.1 hr with rfl | hrest
    · have hafter : ∀ s ∈ rest, ¬ (s.start ≤ addr) := by
        intro s hsm
        have := (List.pairwise_cons.1 hsep).1 s hsm
        omega
      have hfres : rest.filter (fun s => s.start ≤ addr) = [] := by
        rw [List.filter_eq_nil_iff]
        intro s hsm
        simpa using hafter s hsm
      have hx : addr64 (r.start + r.size) = r.start + r.size :=
        addr64_eq_of_lt (hU r hr)
      unfold findRegionByMappedAddr
      rw [List.filter_cons_of_pos (by simpa using h1), hfres]
      simp only [List.getLast?_singleton]
      rw [if_neg (by omega)]
    · have ih := findRegion_eq rest addr (List.pairwise_cons.1 hsep).2
        (fun y hy => hU y (List.mem_cons_of_mem _ hy)) r hrest h1 h2
      unfold findRegionByMappedAddr at ih ⊢
      by_cases hx : x.start ≤ addr
      · rw [List.filter_cons_of_pos (by simpa using hx)]
        have hrf : r ∈ rest.filter (fun s => s.start ≤ addr) :=
          List.mem_filter.2 ⟨hrest, by simpa using h1⟩
        cases hfr : rest.filter (fun s => s.start ≤ addr) with
        | nil =>
          rw [hfr] at hrf
          exact absurd hrf (List.not_mem_nil r)
        | cons y ys =>
          rw [hfr] at ih
          rw [show (x :: y :: ys).getLast? = (y :: ys).getLast? from rfl]
          exact ih
      · rw [List.filter_cons_of_neg (by simpa using hx)]
        exact ih

end Memtools

/-- Claim C2 counterexample: the scan is claimed to invoke the predicate
exactly once on `r.start + o` for every region `r` and every
stride-aligned offset `o` with `o + object_size ≤ r.size`. On a snapshot
whose first region has size 8 (not a multiple of the 0x1000 block size), the
second block starts at global offset 0x1000, which falls 0xFF8 bytes into the
second region, so offset 0 of the second region (among others) is never
visited: with `stride = 8` and `object_size = 8` the predicate runs only on
`0x1000` and `0x10FF8`, not on the claimed address `0x10000`. -/
theorem c2_scan_coverage_counterexample :
    (∃ r ∈ Memtools.c2Regions, ∃ o, o % 8 = 0 ∧ o + 8 ≤ r.size ∧ 0x10000 = r.start + o) ∧
    (Memtools.scanAddrs Memtools.c2Regions 8 8).count 0x10000 = 0 := by
  refine ⟨⟨⟨0x10000, 0x1000, List.replicate 0x1000 0⟩, List.mem_cons_of_mem _ (List.mem_cons_self _ _),
    0, by decide, by decide, by decide⟩, ?_⟩
  decide

/-- Claim C2 (amended): the universal coverage statement holds once every
region size is a multiple of the 0x1000 block size (the snapshot producer
dumps whole pages, and the claim fails otherwise — see the counterexample),
the stride is a positive divisor of the block size (exactly the powers of two
`≤ 0x1000` that `map_all_addresses` accepts), `1 ≤ object_size ≤ 0x1000`, and
the regions are disjoint, sorted and within the 64-bit address space. Under
these hypotheses the scan invokes the predicate exactly once on `r.start + o`
for every region `r` and stride-aligned offset `o` with
`o + object_size ≤ r.size`, and never on any other address. -/
theorem c2_scan_coverage_amended
    (regions : List Memtools.Region) (stride objectSize : Nat)
    (hs : 0 < stride) (hsd : stride ∣ Memtools.blockStride)
    (hobj1 : 1 ≤ objectSize) (hobj2 : objectSize ≤ Memtools.blockStride)
    (hblk : ∀ r ∈ regions, Memtools.blockStride ∣ r.size)
    (hsep : regions.Pairwise (fun r s => r.start + r.size ≤ s.start))
    (hbound : ∀ r ∈ regions, r.start + r.size ≤ Memtools.U64)
    (a : Nat) :
    ((∃ r ∈ regions, ∃ o, o % stride = 0 ∧ o + objectSize ≤ r.size ∧ a = r.start + o) →
        (Memtools.scanAddrs regions stride objectSize).count a = 1) ∧
    ((¬ ∃ r ∈ regions, ∃ o, o % stride = 0 ∧ o + objectSize ≤ r.size ∧ a = r.start + o) →
        (Memtools.scanAddrs regions stride objectSize).count a = 0) := by
  have hnd := Memtools.scanAddrs_nodup regions stride objectSize hs hsd hobj1 hobj2
    hblk hsep hbound
  have hmem := Memtools.mem_scanAddrs_iff regions stride objectSize hs hsd hobj1 hobj2
    hblk hsep hbound a
  have hbridge :
      (∃ r ∈ regions, ∃ o, o % stride = 0 ∧ o + objectSize ≤ r.size ∧ a = r.start + o) ↔
      (∃ i, ∃ hi : i < regions.length, ∃ o, o % stride = 0 ∧
        o + objectSize ≤ regions[i].size ∧ a = regions[i].start + o) := by
    constructor
    · rintro ⟨r, hr, o, h1, h2, h3⟩
      obtain ⟨i, hi, rfl⟩ := List.mem_iff_getElem.1 hr
      exact ⟨i, hi, o, h1, h2, h3⟩
    · rintro ⟨i, hi, o, h1, h2, h3⟩
      exact ⟨regions[i], List.getElem_mem hi, o, h1, h2, h3⟩
  constructor
  · intro hp
    exact List.count_eq_one_of_mem hnd (hmem.2 (hbridge.1 hp))
  · intro hp
    apply List.count_eq_zero_of_not_mem
    intro hin
    exact hp (hbridge.2 (hmem.1 hin))

/-- Witness for C2 (amended) on a concrete one-page snapshot: with
`stride = 8` and `object_size = 8` the predicate runs exactly once on the
region start and never on an unaligned address. -/
theorem c2_scan_coverage_amended_witness :
    (Memtools.scanAddrs [⟨0x100000, 0x1000, List.replicate 0x1000 0⟩] 8 8).count 0x100000 = 1 ∧
    (Memtools.scanAddrs [⟨0x100000, 0x1000, List.replicate 0x1000 0⟩] 8 8).count 0x100004 = 0 := by
  constructor
  · exact (c2_scan_coverage_amended [⟨0x100000, 0x1000, List.replicate 0x1000 0⟩] 8 8
      (by decide) (by decide) (by decide) (by decide) (by decide) (by decide) (by decide)
      0x100000).1
      ⟨⟨0x100000, 0x1000, List.replicate 0x1000 0⟩, List.mem_cons_self _ _, 0,
        by decide, by decide, by decide⟩
  · refine (c2_scan_coverage_amended [⟨0x100000, 0x1000, List.replicate 0x1000 0⟩] 8 8
      (by decide) (by decide) (by decide) (by decide) (by decide) (by decide) (by decide)
      0x100004).2 ?_
    rintro ⟨r, hr, o, h1, h2, h3⟩
    have hr2 : r = ⟨0x100000, 0x1000, List.replicate 0x1000 0⟩ := by
      rcases List.mem_cons.1 hr with h | h
      · exact h
      · exact absurd h (List.not_mem_nil r)
    subst hr2
    simp only at h3
    omega

/-- Claim C1: `obj_valid_or_null(addr, align)` is claimed to return true iff
`addr` is null or `obj_valid(addr, align)` returns true. The source instead
computes `addr == 0 || !(misaligned && exists_range)`, so for the non-null,
8-aligned address `0x3000` that lies outside every region it returns `true`
while `addr = 0 ∨ obj_valid addr` is false. This theorem evaluates both sides
of the claimed equivalence at that input and shows they differ. -/
theorem c1_obj_valid_or_null_precedence_bug :
    Memtools.objValidOrNull Memtools.pageSnapshot 0x3000 8 1 = true ∧
    (0x3000 == 0 || Memtools.objValid Memtools.pageSnapshot 0x3000 8 1) = false := by
  constructor <;> rfl

/-- Claim C4 counterexample: the claim asserts `exists_range(addr, n) →
read(addr, n)` succeeds even when `addr + n` overflows 64 bits. On the region
`[0x1000, 0x3000)` with `addr = 0x2000` and `n = 2^64 - 0x800`, the wrapped
end address computed by `exists_range` lands back inside the region, so
`exists_range` returns true — but `read` correctly detects the wrap of
`offset + size` and throws. -/
theorem c4_exists_range_overflow_counterexample :
    Memtools.existsRange Memtools.pageSnapshot 0x2000 (2 ^ 64 - 0x800) = true ∧
    Memtools.readMem Memtools.pageSnapshot 0x2000 (2 ^ 64 - 0x800)
      = Except.error "Read size extends beyond end of region" := by
  constructor <;> rfl

/-- Claim C4 (amended): when `addr + n` does not overflow the 64-bit address
space, `exists_range(addr, n) = true` implies `read(addr, n)` succeeds and
yields exactly the backing file's bytes at the region offset `addr - r.start`
(the embedding's `r.data` is the byte-identical backing file content). -/
theorem c4_read_after_exists_range_amended
    (regions : List Memtools.Region) (addr n : Nat)
    (hbound : ∀ x ∈ regions, x.start + x.size ≤ Memtools.U64)
    (hov : addr + n < Memtools.U64)
    (hex : Memtools.existsRange regions addr n = true) :
    ∃ r ∈ regions, r.start ≤ addr ∧
      Memtools.readMem regions addr n
        = Except.ok ((r.data.drop (addr - r.start)).take n) := by
  unfold Memtools.existsRange at hex
  cases hf : Memtools.findRegionByMappedAddr regions addr with
  | none =>
    rw [hf] at hex
    simp at hex
  | some r =>
    rw [hf] at hex
    dsimp only at hex
    obtain ⟨hmem, hle, hlt⟩ := Memtools.findRegion_spec hf
    have hU : r.start + r.size ≤ Memtools.U64 := hbound r hmem
    have hlt2 : addr < r.start + r.size := by
      have hm := Nat.mod_le (r.start + r.size) Memtools.U64
      unfold Memtools.addr64 at hlt
      omega
    have hA : Memtools.addr64 (addr + n) = addr + n := Memtools.addr64_eq_of_lt hov
    rw [hA] at hex
    have hsub : Memtools.usub64 (addr + n) r.start = addr + n - r.start :=
      Memtools.usub64_eq (by omega) (by omega) (by omega)
    rw [hsub] at hex
    have hex2 : addr + n - r.start ≤ r.size := by simpa using hex
    unfold Memtools.readMem
    rw [hf]
    dsimp only
    have hoff : Memtools.usub64 addr r.start = addr - r.start :=
      Memtools.usub64_eq (by omega) (by omega) (by omega)
    rw [hoff]
    have hofn : Memtools.addr64 (addr - r.start + n) = addr - r.start + n :=
      Memtools.addr64_eq_of_lt (by omega)
    rw [hofn, if_neg (by omega)]
    exact ⟨r, hmem, hle, rfl⟩

/-- Witness for C4 (amended) on the concrete snapshot: an in-range read at
`0x1800` of 16 bytes succeeds with the backing bytes. -/
theorem c4_read_after_exists_range_amended_witness :
    ∃ r ∈ Memtools.pageSnapshot, r.start ≤ 0x1800 ∧
      Memtools.readMem Memtools.pageSnapshot 0x1800 0x10
        = Except.ok ((r.data.drop (0x1800 - r.start)).take 0x10) :=
  c4_read_after_exists_range_amended Memtools.pageSnapshot 0x1800 0x10
    (by decide) (by decide) (by rfl)

/-- Claim C5 counterexample: with `size = 0` and `addr` exactly at a region
end, the empty range `[addr, addr)` lies inside the region under the claim's
reading (`r.start ≤ addr ∧ addr + size ≤ r.start + r.size`), yet `read`
fails, because `find_region_by_mapped_addr` requires `addr` to be strictly
inside a region. -/
theorem c5_zero_size_counterexample :
    (∃ r ∈ Memtools.pageSnapshot, r.start ≤ 0x3000 ∧ 0x3000 + 0 ≤ r.start + r.size) ∧
    Memtools.readMem Memtools.pageSnapshot 0x3000 0
      = Except.error "Address not within any block" := by
  exact ⟨⟨⟨0x1000, 0x2000, List.replicate 0x2000 0⟩, List.mem_cons_self _ _,
    by decide, by decide⟩, rfl⟩

/-- Claim C5 (amended): for every `size` with `1 ≤ size` and `size + 1 < 2^64`
(the claim fails only for the degenerate `size = 0` at a region boundary —
see the counterexample), on a well-formed snapshot (regions pairwise disjoint
and sorted, ending below `2^64`), `read(addr, size)` succeeds iff
`[addr, addr + size)` lies inside a single region; in particular a read
ending exactly at a region end succeeds and the same read with one more byte
fails with the out-of-range error. -/
theorem c5_read_iff_in_region_amended
    (regions : List Memtools.Region) (addr n : Nat)
    (hsep : regions.Pairwise (fun r s => r.start + r.size ≤ s.start))
    (hbound : ∀ x ∈ regions, x.start + x.size < Memtools.U64)
    (haddr : addr < Memtools.U64) (hn1 : 1 ≤ n) (hn : n + 1 < Memtools.U64) :
    ((Memtools.readMem regions addr n).isOk = true ↔
      ∃ r ∈ regions, r.start ≤ addr ∧ addr + n ≤ r.start + r.size) ∧
    (∀ r ∈ regions, r.start ≤ addr → addr + n = r.start + r.size →
      (Memtools.readMem regions addr n).isOk = true ∧
      Memtools.readMem regions addr (n + 1)
        = Except.error "Read size extends beyond end of region") := by
  have hmain : (Memtools.readMem regions addr n).isOk = true ↔
      ∃ r ∈ regions, r.start ≤ addr ∧ addr + n ≤ r.start + r.size := by
    constructor
    · intro hok
      unfold Memtools.readMem at hok
      cases hf : Memtools.findRegionByMappedAddr regions addr with
      | none =>
        rw [hf] at hok
        simp [Except.isOk, Except.toBool] at hok
      | some r =>
        rw [hf] at hok
        dsimp only at hok
        obtain ⟨hmem, hle, hlt⟩ := Memtools.findRegion_spec hf
        have hU : r.start + r.size < Memtools.U64 := hbound r hmem
        have hlt2 : addr < r.start + r.size := by
          have hm := Nat.mod_le (r.start + r.size) Memtools.U64
          unfold Memtools.addr64 at hlt
          omega
        have hoff : Memtools.usub64 addr r.start = addr - r.start :=
          Memtools.usub64_eq (by omega) (by omega) (by omega)
        rw [hoff] at hok
        by_cases hc : Memtools.addr64 (addr - r.start + n) > r.size ∨
            Memtools.addr64 (addr - r.start + n) < addr - r.start
        · rw [if_pos hc] at hok
          simp [Except.isOk, Except.toBool] at hok
        · push_neg at hc
          have hc2 := hc.2
          have hnw : addr - r.start + n < Memtools.U64 := by
            by_contra hbig
            push_neg at hbig
            have ha2 := haddr
            have hn2 := hn
            unfold Memtools.addr64 Memtools.U64 at hc2
            unfold Memtools.U64 at hbig ha2 hn2
            omega
          rw [Memtools.addr64_eq_of_lt hnw] at hc
          exact ⟨r, hmem, hle, by omega⟩
    · rintro ⟨r, hmem, h1, h2⟩
      have hlt2 : addr < r.start + r.size := by omega
      have hf := Memtools.findRegion_eq regions addr hsep hbound r hmem h1 hlt2
      unfold Memtools.readMem
      rw [hf]
      dsimp only
      have hU : r.start + r.size < Memtools.U64 := hbound r hmem
      have hoff : Memtools.usub64 addr r.start = addr - r.start :=
        Memtools.usub64_eq (by omega) (by omega) (by omega)
      rw [hoff]
      have hofn : Memtools.addr64 (addr - r.start + n) = addr - r.start + n :=
        Memtools.addr64_eq_of_lt (by omega)
      rw [hofn, if_neg (by omega)]
      rfl
  refine ⟨hmain, ?_⟩
  intro r hmem hle heq
  refine ⟨hmain.2 ⟨r, hmem, hle, by omega⟩, ?_⟩
  have hU : r.start + r.size < Memtools.U64 := hbound r hmem
  have hlt2 : addr < r.start + r.size := by omega
  have hf := Memtools.findRegion_eq regions addr hsep hbound r hmem hle hlt2
  unfold Memtools.readMem
  rw [hf]
  dsimp only
  have hoff : Memtools.usub64 addr r.start = addr - r.start :=
    Memtools.usub64_eq (by omega) (by omega) (by omega)
  rw [hoff]
  have hofsz : addr - r.start + n = r.size := by omega
  by_cases hw : addr - r.start + (n + 1) < Memtools.U64
  · rw [Memtools.addr64_eq_of_lt hw, if_pos (by omega)]
  · push_neg at hw
    have hzero : 0 < Memtools.U64 := Memtools.U64_pos
    have hwe : addr - r.start + (n + 1) = Memtools.U64 := by omega
    have h0 : Memtools.addr64 (addr - r.start + (n + 1)) = 0 := by
      rw [hwe]
      unfold Memtools.addr64
      exact Nat.mod_self _
    rw [h0, if_pos (Or.inr (by omega))]

/-- Witness for C5 (amended): on the concrete snapshot, a 16-byte read ending
exactly at the region end `0x3000` succeeds, and the 17-byte read from the
same address fails with the out-of-range error. -/
theorem c5_read_iff_in_region_amended_witness :
    (Memtools.readMem Memtools.pageSnapshot 0x2FF0 0x10).isOk = true ∧
    Memtools.readMem Memtools.pageSnapshot 0x2FF0 (0x10 + 1)
      = Except.error "Read size extends beyond end of region" :=
  (c5_read_iff_in_region_amended Memtools.pageSnapshot 0x2FF0 0x10
    (by decide) (by decide) (by decide) (by decide) (by decide)).2
    ⟨0x1000, 0x2000, List.replicate 0x2000 0⟩ (List.mem_cons_self _ _)
    (by decide) (by decide)

namespace Memtools

/-! ## Catalog bootstrap (`find_base_type_object` / `find_all_type_objects`)

The catalog queries run `map_all_addresses<PyTypeObject>` and inspect each
candidate only through four observations: its mapped address, its decoded
`ob_type` pointer, whether `invalid_reason(env)` returned `nullptr`, and its
decoded name. A scan is therefore modelled as the list of those observations
in the order the (unordered, parallel) predicate invocations acquire the
output lock; two runs of the same scan may produce any two permutations of
the same observations. -/

/-- One candidate visited by the type-object scan. -/
structure TyObs where
  addr : Nat
  obType : Nat
  valid : Bool
  name : String
deriving Repr, DecidableEq

/-- The predicate filter inside `find_base_type_object`: keep candidates
with `ob_type == addr` (self-typed), `invalid_reason(env) == nullptr`, and
name `"type"` (the source skips candidates failing any of the three). -/
def baseTypeCandidates (scan : List TyObs) : List TyObs :=
  scan.filter (fun c => c.obType == c.addr && c.valid && c.name == "type")

/-- The catalog (`Environment`): `base_type_object` (0 = null),
`type_objects` (insertion-ordered key/value list of the name → address map)
and whether `save_analysis()` has been called. -/
structure Catalog where
  baseType : Nat
  typeObjects : List (String × Nat)
  saved : Bool
deriving Repr, DecidableEq

/-- `find_base_type_object`: collect the candidates; if exactly one was
found (`candidates.size() == 1`), store it as the base type and persist
(`save_analysis`), otherwise leave the environment untouched. -/
def findBaseTypeObject (env : Catalog) (scan : List TyObs) : Catalog :=
  match baseTypeCandidates scan with
  | [c] => { env with baseType := c.addr, saved := true }
  | _ => env

/-- `AnalysisShell::prepare` prints the `Failed to find exactly one base
type object` diagnostic iff `base_type_object` is still null after
`find_base_type_object` ran. -/
def prepareReportsFailure (env : Catalog) : Bool :=
  env.baseType == 0

/-- The hexadecimal digit characters used by `{:016X}` formatting. -/
def hexDigits : List Char := "0123456789ABCDEF".toList

/-- One digit of `{:016X}`. -/
def hexChar (d : Nat) : Char := hexDigits.getD d 'X'

/-- The sixteen uppercase hex digits of a mapped address, most significant
first (`std::format("{:016X}", addr)`). -/
def hex16Chars (n : Nat) : List Char :=
  (List.range 16).map (fun i => hexChar (n / 16 ^ (15 - i) % 16))

/-- `{:016X}` formatting of a mapped address. -/
def hex16 (n : Nat) : String :=
  String.mk (hex16Chars n)

/-- `unordered_map` lookup over the insertion-ordered entry list (keys are
never duplicated by the emplace model below, so order is irrelevant to
lookups). -/
def lookupKey : List (String × Nat) → String → Option Nat
  | [], _ => none
  | (k, v) :: rest, key => if k = key then some v else lookupKey rest key

/-- `env.type_objects.emplace(type_name, addr)` plus the collision handling
from `find_all_type_objects`: if the name is already mapped to a different
address, emplace under the alternate key `"{name}+{addr}"` (the result of
this second emplace is ignored, so it silently does nothing if the alternate
key is also taken). -/
def emplaceTypeObject (m : List (String × Nat)) (name : String) (addr : Nat) :
    List (String × Nat) :=
  match lookupKey m name with
  | none => m ++ [(name, addr)]
  | some a =>
    if a ≠ addr then
      match lookupKey m (name ++ "+" ++ hex16 addr) with
      | none => m ++ [(name ++ "+" ++ hex16 addr, addr)]
      | some _ => m
    else m

/-- `find_all_type_objects`: clear `type_objects`, then for every scanned
candidate with `ob_type == base_type` and `invalid_reason == nullptr`,
insert its decoded name (in scan-observation order). -/
def findAllTypeObjects (baseType : Nat) (scan : List TyObs) : List (String × Nat) :=
  (scan.filter (fun c => c.obType == baseType && c.valid)).foldl
    (fun m c => emplaceTypeObject m c.name c.addr) []

/-- A two-object scan (the self-typed base type and one ordinary type)
shared by the catalog witnesses. -/
def tyScanExample : List TyObs :=
  [⟨8, 8, true, "type"⟩, ⟨16, 8, true, "int"⟩]

end Memtools

/-- Claim C6: `find_base_type_object` stores a candidate address as
`base_type` and persists the catalog iff exactly one scanned address
satisfies the three conditions (self-typed `ob_type`, validity ok, name
`"type"`); with zero or several candidates the catalog's base type remains
null and unpersisted and `prepare` reports the failure diagnostic. The scan
is assumed to visit no null address (addresses are region starts plus
offsets, and address 0 is never mapped). -/
theorem c6_find_base_type (env : Memtools.Catalog) (scan : List Memtools.TyObs)
    (hnull : env.baseType = 0) (hsave : env.saved = false)
    (hnz : ∀ c ∈ scan, c.addr ≠ 0) :
    (((Memtools.findBaseTypeObject env scan).baseType ≠ 0 ∧
        (Memtools.findBaseTypeObject env scan).saved = true) ↔
      (Memtools.baseTypeCandidates scan).length = 1) ∧
    ((Memtools.baseTypeCandidates scan).length = 1 →
      ∃ c ∈ Memtools.baseTypeCandidates scan,
        (Memtools.findBaseTypeObject env scan).baseType = c.addr) ∧
    ((Memtools.baseTypeCandidates scan).length ≠ 1 →
      (Memtools.findBaseTypeObject env scan).baseType = 0 ∧
      (Memtools.findBaseTypeObject env scan).saved = false ∧
      Memtools.prepareReportsFailure (Memtools.findBaseTypeObject env scan) = true) := by
  unfold Memtools.findBaseTypeObject
  cases hc : Memtools.baseTypeCandidates scan with
  | nil =>
    refine ⟨?_, ?_, ?_⟩
    · simp [hnull, hsave]
    · simp
    · intro _
      simp [hnull, hsave, Memtools.prepareReportsFailure]
  | cons c rest =>
    cases rest with
    | nil =>
      have hcm : c ∈ Memtools.baseTypeCandidates scan := by
        rw [hc]
        exact List.mem_cons_self _ _
      have hcs : c ∈ scan := List.mem_of_mem_filter hcm
      have hca : c.addr ≠ 0 := hnz c hcs
      refine ⟨?_, ?_, ?_⟩
      · simp [hca]
      · intro _
        exact ⟨c, List.mem_cons_self _ _, rfl⟩
      · intro hlen
        simp at hlen
    | cons d rest2 =>
      refine ⟨?_, ?_, ?_⟩
      · constructor
        · intro h
          exact absurd h.2 (by simp [hsave])
        · intro h
          simp at h
      · intro h
        simp at h
      · intro _
        simp [hnull, hsave, Memtools.prepareReportsFailure]

/-- Witness for C6 on a concrete scan with exactly one self-typed `"type"`
candidate: the base type is stored and persisted. -/
theorem c6_find_base_type_witness :
    (Memtools.findBaseTypeObject ⟨0, [], false⟩ Memtools.tyScanExample).baseType ≠ 0 ∧
    (Memtools.findBaseTypeObject ⟨0, [], false⟩ Memtools.tyScanExample).saved = true :=
  (c6_find_base_type ⟨0, [], false⟩ Memtools.tyScanExample rfl rfl
    (by decide)).1.mpr (by decide)

namespace Memtools

lemma lookupKey_mem : ∀ {m : List (String × Nat)} {k : String} {v : Nat},
    lookupKey m k = some v → (k, v) ∈ m
  | [], k, v, h => by simp [lookupKey] at h
  | (k1, v1) :: rest, k, v, h => by
    unfold lookupKey at h
    by_cases he : k1 = k
    · rw [if_pos he] at h
      obtain rfl : v1 = v := by injection h
      subst he
      exact List.mem_cons_self _ _
    · rw [if_neg he] at h
      exact List.mem_cons_of_mem _ (lookupKey_mem h)

lemma emplace_values {m : List (String × Nat)} {n : String} {a : Nat}
    {kv : String × Nat} (h : kv ∈ emplaceTypeObject m n a) : kv ∈ m ∨ kv.2 = a := by
  unfold emplaceTypeObject at h
  cases h1 : lookupKey m n with
  | none =>
    rw [h1] at h
    dsimp only at h
    rcases List.mem_append.1 h with h2 | h2
    · exact Or.inl h2
    · right
      have hkv : kv = (n, a) := by simpa using h2
      rw [hkv]
  | some b =>
    rw [h1] at h
    dsimp only at h
    by_cases hne : b ≠ a
    · rw [if_pos hne] at h
      cases h2 : lookupKey m (n ++ "+" ++ hex16 a) with
      | none =>
        rw [h2] at h
        rcases List.mem_append.1 h with h3 | h3
        · exact Or.inl h3
        · right
          have : kv = (n ++ "+" ++ hex16 a, a) := by simpa using h3
          rw [this]
      | some _ =>
        rw [h2] at h
        exact Or.inl h
    · rw [if_neg hne] at h
      exact Or.inl h

lemma foldl_emplace_values :
    ∀ (hits : List TyObs) (m : List (String × Nat)) (kv : String × Nat),
      kv ∈ hits.foldl (fun acc c => emplaceTypeObject acc c.name c.addr) m →
      kv ∈ m ∨ ∃ o ∈ hits, o.addr = kv.2
  | [], _, _, h => Or.inl h
  | c :: t, m, kv, h => by
    rcases foldl_emplace_values t (emplaceTypeObject m c.name c.addr) kv h with
      h2 | ⟨o, ho, he⟩
    · rcases emplace_values h2 with h3 | h3
      · exact Or.inl h3
      · exact Or.inr ⟨c, List.mem_cons_self _ _, h3.symm⟩
    · exact Or.inr ⟨o, List.mem_cons_of_mem _ ho, he⟩

end Memtools

/-- Claim C8: after find-base-type succeeds (exactly one candidate `c`) and
find-all-types runs on the same snapshot scan, the stored base type is
`c.addr`, the base type is self-typed (`ob_type == base_type`), and every
address stored in `types_by_name` is the address of a scanned object whose
`ob_type` equals the base type (the find-all-types filter admits only such
objects). -/
theorem c8_types_by_name_ob_type (env : Memtools.Catalog) (scan : List Memtools.TyObs)
    (c : Memtools.TyObs) (hcand : Memtools.baseTypeCandidates scan = [c]) :
    (Memtools.findBaseTypeObject env scan).baseType = c.addr ∧
    c.obType = c.addr ∧
    (∀ (k : String) (a : Nat),
      Memtools.lookupKey (Memtools.findAllTypeObjects c.addr scan) k = some a →
      ∃ o ∈ scan, o.addr = a ∧ o.obType = c.addr) := by
  have hcm : c ∈ Memtools.baseTypeCandidates scan := by
    rw [hcand]
    exact List.mem_cons_self _ _
  have hp := (List.mem_filter.1 hcm).2
  have hself : c.obType = c.addr := by
    simp only [Bool.and_eq_true, beq_iff_eq] at hp
    exact hp.1.1
  refine ⟨?_, hself, ?_⟩
  · unfold Memtools.findBaseTypeObject
    rw [hcand]
  · intro k a hl
    have hkv := Memtools.lookupKey_mem hl
    unfold Memtools.findAllTypeObjects at hkv
    rcases Memtools.foldl_emplace_values _ _ _ hkv with h2 | ⟨o, ho, he⟩
    · simp at h2
    · have hof := (List.mem_filter.1 ho).2
      simp only [Bool.and_eq_true, beq_iff_eq] at hof
      exact ⟨o, List.mem_of_mem_filter ho, he, hof.1⟩

/-- Witness for C8 on the concrete two-object scan: the base type is stored
at address 8, and the catalog entry for `"int"` (address 16) has
`ob_type == base_type`. -/
theorem c8_types_by_name_ob_type_witness :
    (Memtools.findBaseTypeObject ⟨0, [], false⟩ Memtools.tyScanExample).baseType = 8 ∧
    ∃ o ∈ Memtools.tyScanExample, o.addr = 16 ∧ o.obType = 8 := by
  have h := c8_types_by_name_ob_type ⟨0, [], false⟩ Memtools.tyScanExample
    ⟨8, 8, true, "type"⟩ (by decide)
  exact ⟨h.1, h.2.2 "int" 16 (by decide)⟩

namespace Memtools

lemma hex16_data (n : Nat) : (hex16 n).data = hex16Chars n := rfl

lemma hex16Chars_length (n : Nat) : (hex16Chars n).length = 16 := by
  simp [hex16Chars]

lemma hexChar_inj16 : ∀ d < 16, ∀ e < 16, hexChar d = hexChar e → d = e := by decide

lemma hex16Chars_getD {n i : Nat} (hi : i < 16) :
    (hex16Chars n).getD i 'X' = hexChar (n / 16 ^ (15 - i) % 16) := by
  unfold hex16Chars
  simp [List.getD, List.getElem?_map, List.getElem?_range, hi]

lemma digits_inj : ∀ (k : Nat) {a b : Nat}, a < 16 ^ k → b < 16 ^ k →
    (∀ j < k, a / 16 ^ j % 16 = b / 16 ^ j % 16) → a = b
  | 0, a, b, ha, hb, _ => by
    simp only [pow_zero, Nat.lt_one_iff] at ha hb
    omega
  | k + 1, a, b, ha, hb, hd => by
    have h0 := hd 0 (by omega)
    simp only [pow_zero, Nat.div_one] at h0
    have h16 : (0 : Nat) < 16 := by norm_num
    have hql : a / 16 < 16 ^ k := by
      rw [Nat.div_lt_iff_lt_mul h16]
      calc a < 16 ^ (k + 1) := ha
        _ = 16 ^ k * 16 := by rw [pow_succ]
    have hqr : b / 16 < 16 ^ k := by
      rw [Nat.div_lt_iff_lt_mul h16]
      calc b < 16 ^ (k + 1) := hb
        _ = 16 ^ k * 16 := by rw [pow_succ]
    have hrec : ∀ j < k, a / 16 / 16 ^ j % 16 = b / 16 / 16 ^ j % 16 := by
      intro j hj
      have hp : (16 : Nat) * 16 ^ j = 16 ^ (j + 1) := by
        rw [pow_succ]
        ring
      rw [Nat.div_div_eq_div_mul, Nat.div_div_eq_div_mul, hp]
      exact hd (j + 1) (by omega)
    have hq := digits_inj k hql hqr hrec
    have hda := Nat.div_add_mod a 16
    have hdb := Nat.div_add_mod b 16
    omega

lemma hex16Chars_inj {a b : Nat} (ha : a < U64) (hb : b < U64)
    (h : hex16Chars a = hex16Chars b) : a = b := by
  have hU : U64 = 16 ^ 16 := by
    unfold U64
    norm_num
  have hd : ∀ j < 16, a / 16 ^ j % 16 = b / 16 ^ j % 16 := by
    intro j hj
    have hi : 15 - j < 16 := by omega
    have hji : 15 - (15 - j) = j := by omega
    have hg := congrArg (fun l => l.getD (15 - j) 'X') h
    dsimp only at hg
    rw [hex16Chars_getD hi, hex16Chars_getD hi, hji] at hg
    exact hexChar_inj16 _ (Nat.mod_lt _ (by norm_num)) _ (Nat.mod_lt _ (by norm_num)) hg
  exact digits_inj 16 (hU ▸ ha) (hU ▸ hb) hd

/-- Proof helper: the shape of every entry `find_all_type_objects` can
produce: either a plain type name (which never contains a plus sign when the
scanned names are plus-free) or an alternate collision key
`"{name}+{addr}"` whose trailing sixteen hex digits encode its own value. -/
def GoodEntry (kv : String × Nat) : Prop :=
  ('+' ∉ kv.1.data ∧ kv.2 < U64) ∨
  (∃ nm : String, '+' ∉ nm.data ∧ kv.2 < U64 ∧ kv.1 = nm ++ "+" ++ hex16 kv.2)

lemma lookupKey_append_some : ∀ {m : List (String × Nat)} (l : List (String × Nat))
    {k : String} {v : Nat},
    lookupKey m k = some v → lookupKey (m ++ l) k = some v
  | [], _, _, _, h => by simp [lookupKey] at h
  | (k1, v1) :: rest, l, k, v, h => by
    simp only [lookupKey, List.cons_append] at h ⊢
    by_cases he : k1 = k
    · rw [if_pos he] at h ⊢
      exact h
    · rw [if_neg he] at h ⊢
      exact lookupKey_append_some l h

lemma lookupKey_append_none : ∀ {m : List (String × Nat)} (l : List (String × Nat))
    {k : String},
    lookupKey m k = none → lookupKey (m ++ l) k = lookupKey l k
  | [], _, _, _ => rfl
  | (k1, v1) :: rest, l, k, h => by
    simp only [lookupKey, List.cons_append] at h ⊢
    by_cases he : k1 = k
    · rw [if_pos he] at h
      exact absurd h (by simp)
    · rw [if_neg he] at h ⊢
      exact lookupKey_append_none l h

lemma lookup_emplace_some {m : List (String × Nat)} {n : String} {a : Nat}
    {k : String} {v : Nat} (h : lookupKey m k = some v) :
    lookupKey (emplaceTypeObject m n a) k = some v := by
  unfold emplaceTypeObject
  cases h1 : lookupKey m n with
  | none => exact lookupKey_append_some _ h
  | some b =>
    dsimp only
    by_cases hne : b ≠ a
    · rw [if_pos hne]
      cases h2 : lookupKey m (n ++ "+" ++ hex16 a) with
      | none => exact lookupKey_append_some _ h
      | some _ => exact h
    · rw [if_neg hne]
      exact h

lemma lookup_foldl_some :
    ∀ (hits : List TyObs) (m : List (String × Nat)) {k : String} {v : Nat},
      lookupKey m k = some v →
      lookupKey (hits.foldl (fun acc c => emplaceTypeObject acc c.name c.addr) m) k = some v
  | [], _, _, _, h => h
  | c :: t, m, _, _, h =>
    lookup_foldl_some t (emplaceTypeObject m c.name c.addr) (lookup_emplace_some h)

lemma emplace_preserves_good {m : List (String × Nat)} {n : String} {a : Nat}
    (hg : ∀ kv ∈ m, GoodEntry kv) (hn : '+' ∉ n.data) (ha : a < U64) :
    ∀ kv ∈ emplaceTypeObject m n a, GoodEntry kv := by
  intro kv hkv
  unfold emplaceTypeObject at hkv
  cases h1 : lookupKey m n with
  | none =>
    rw [h1] at hkv
    dsimp only at hkv
    rcases List.mem_append.1 hkv with h2 | h2
    · exact hg kv h2
    · have : kv = (n, a) := by simpa using h2
      rw [this]
      exact Or.inl ⟨hn, ha⟩
  | some b =>
    rw [h1] at hkv
    dsimp only at hkv
    by_cases hne : b ≠ a
    · rw [if_pos hne] at hkv
      cases h2 : lookupKey m (n ++ "+" ++ hex16 a) with
      | none =>
        rw [h2] at hkv
        rcases List.mem_append.1 hkv with h3 | h3
        · exact hg kv h3
        · have : kv = (n ++ "+" ++ hex16 a, a) := by simpa using h3
          rw [this]
          exact Or.inr ⟨n, hn, ha, rfl⟩
      | some _ =>
        rw [h2] at hkv
        exact hg kv hkv
    · rw [if_neg hne] at hkv
      exact hg kv hkv

lemma emplace_retains {m : List (String × Nat)} {n : String} {a : Nat}
    (hg : ∀ kv ∈ m, GoodEntry kv) (_hn : '+' ∉ n.data) (ha : a < U64) :
    ∃ k, lookupKey (emplaceTypeObject m n a) k = some a ∧
      (k = n ∨ k = n ++ "+" ++ hex16 a) := by
  unfold emplaceTypeObject
  cases h1 : lookupKey m n with
  | none =>
    dsimp only
    refine ⟨n, ?_, Or.inl rfl⟩
    rw [lookupKey_append_none _ h1]
    simp [lookupKey]
  | some b =>
    dsimp only
    by_cases hne : b ≠ a
    · rw [if_pos hne]
      cases h2 : lookupKey m (n ++ "+" ++ hex16 a) with
      | none =>
        dsimp only
        refine ⟨n ++ "+" ++ hex16 a, ?_, Or.inr rfl⟩
        rw [lookupKey_append_none _ h2]
        simp [lookupKey]
      | some v =>
        dsimp only
        refine ⟨n ++ "+" ++ hex16 a, ?_, Or.inr rfl⟩
        have hmem := lookupKey_mem h2
        rcases hg _ hmem with ⟨hfree, _⟩ | ⟨nm, hnm, hvU, hkey⟩
        · exfalso
          apply hfree
          show '+' ∈ (n ++ "+" ++ hex16 a).data
          rw [String.data_append, String.data_append]
          exact List.mem_append_left _ (List.mem_append_right _ (by simp))
        · have hdata : nm.data ++ ['+'] ++ hex16Chars v
              = n.data ++ ['+'] ++ hex16Chars a := by
            have hd2 := congrArg String.data hkey
            rw [String.data_append, String.data_append, hex16_data] at hd2
            rw [String.data_append, String.data_append, hex16_data] at hd2
            exact hd2.symm
          have hlen : (nm.data ++ ['+']).length = (n.data ++ ['+']).length := by
            have htot := congrArg List.length hdata
            simp only [List.length_append, hex16Chars_length] at htot
            simp only [List.length_append]
            omega
          have hdata2 : (nm.data ++ ['+']) ++ hex16Chars v
              = (n.data ++ ['+']) ++ hex16Chars a := by
            simpa [List.append_assoc] using hdata
          have hsplit := List.append_inj hdata2 hlen
          have hva : v = a := hex16Chars_inj hvU ha hsplit.2
          rw [h2, hva]
    · push_neg at hne
      subst hne
      rw [if_neg (by simp)]
      exact ⟨n, h1, Or.inl rfl⟩

lemma retention_aux :
    ∀ (hits : List TyObs) (m : List (String × Nat)),
      (∀ kv ∈ m, GoodEntry kv) →
      (∀ c ∈ hits, '+' ∉ c.name.data ∧ c.addr < U64) →
      ∀ c ∈ hits, ∃ k,
        lookupKey (hits.foldl (fun acc x => emplaceTypeObject acc x.name x.addr) m) k
          = some c.addr ∧
        (k = c.name ∨ k = c.name ++ "+" ++ hex16 c.addr)
  | [], _, _, _, c, hc => absurd hc (List.not_mem_nil c)
  | c0 :: t, m, hg, hh, c, hc => by
    have hc0 := hh c0 (List.mem_cons_self _ _)
    have hg2 : ∀ kv ∈ emplaceTypeObject m c0.name c0.addr, GoodEntry kv :=
      emplace_preserves_good hg hc0.1 hc0.2
    rcases List.mem_cons.1 hc with rfl | hct
    · obtain ⟨k, hk, hks⟩ := emplace_retains hg hc0.1 hc0.2
      exact ⟨k, lookup_foldl_some t _ hk, hks⟩
    · exact retention_aux t (emplaceTypeObject m c0.name c0.addr) hg2
        (fun x hx => hh x (List.mem_cons_of_mem _ hx)) c hct

end Memtools

/-- Claim C7 counterexample: within a scan, predicate invocations are
unordered (the spec itself states this), so two runs of find-all-types on
the same snapshot can process the same two same-named type objects in
either order; the plain name goes to whichever is processed first. The two
scan lists below contain the same observations and differ only in order,
yet `types_by_name["Foo"]` is `0x10` after one run and `0x20` after the
other — the mappings are not equal, refuting the claim that two runs
produce the same `types_by_name`. -/
theorem c7_order_dependence_counterexample :
    Memtools.lookupKey (Memtools.findAllTypeObjects 0x99
      [⟨0x10, 0x99, true, "Foo"⟩, ⟨0x20, 0x99, true, "Foo"⟩]) "Foo"
    ≠ Memtools.lookupKey (Memtools.findAllTypeObjects 0x99
      [⟨0x20, 0x99, true, "Foo"⟩, ⟨0x10, 0x99, true, "Foo"⟩]) "Foo" := by
  decide

/-- Claim C7 (amended): which address holds the plain name depends on scan
order, so two runs need not produce the same mapping; what does hold is that
every discovered type object is retained — each scanned candidate passing
the find-all-types filter ends up in the catalog under its plain name or
under the alternate key `"{name}+{address}"`, and conversely every catalog
value is a discovered address. In particular the retained address set is the
same for any two orderings of the same scan, and in a two-way name
collision one address keeps the plain name while the other is retained
under the alternate key. (Assumes type names contain no plus sign and
addresses are 64-bit, both true of the runtime.) -/
theorem c7_retention_amended (base : Nat) (scan : List Memtools.TyObs)
    (hplus : ∀ c ∈ scan, '+' ∉ c.name.data)
    (haddr : ∀ c ∈ scan, c.addr < Memtools.U64) :
    (∀ c ∈ scan, c.obType = base → c.valid = true →
      ∃ k, Memtools.lookupKey (Memtools.findAllTypeObjects base scan) k = some c.addr ∧
        (k = c.name ∨ k = c.name ++ "+" ++ Memtools.hex16 c.addr)) ∧
    (∀ (k : String) (a : Nat),
      Memtools.lookupKey (Memtools.findAllTypeObjects base scan) k = some a →
      ∃ c ∈ scan, c.addr = a) := by
  constructor
  · intro c hc hob hval
    have hcf : c ∈ scan.filter (fun c => c.obType == base && c.valid) :=
      List.mem_filter.2 ⟨hc, by simp [hob, hval]⟩
    exact Memtools.retention_aux _ [] (by simp)
      (fun x hx => ⟨hplus x (List.mem_of_mem_filter hx),
        haddr x (List.mem_of_mem_filter hx)⟩) c hcf
  · intro k a hl
    have hkv := Memtools.lookupKey_mem hl
    unfold Memtools.findAllTypeObjects at hkv
    rcases Memtools.foldl_emplace_values _ _ _ hkv with h2 | ⟨o, ho, he⟩
    · simp at h2
    · exact ⟨o, List.mem_of_mem_filter ho, he⟩

/-- Witness for C7 (amended): in a concrete two-way collision on the name
`"Foo"`, the second-processed address 0x20 is still retained, under the
plain name or the alternate key. -/
theorem c7_retention_amended_witness :
    ∃ k, Memtools.lookupKey (Memtools.findAllTypeObjects 0x99
      [⟨0x10, 0x99, true, "Foo"⟩, ⟨0x20, 0x99, true, "Foo"⟩]) k = some 0x20 ∧
      (k = "Foo" ∨ k = "Foo" ++ "+" ++ Memtools.hex16 0x20) :=
  (c7_retention_amended 0x99 [⟨0x10, 0x99, true, "Foo"⟩, ⟨0x20, 0x99, true, "Foo"⟩]
    (by decide) (by decide)).1
    ⟨0x20, 0x99, true, "Foo"⟩ (List.mem_cons_of_mem _ (List.mem_cons_self _ _))
    rfl rfl

namespace Memtools

/-! ## `async-task-graph` (AnalysisShell.cc)

The scan phase builds `await_targets_for_obj`: a task maps to the singleton
set of its `task_fut_waiter`, a plain future maps to the empty set, and a
gathering future maps to its children. The graph is modelled as that
association list (address → await-target list). Node reprs come from the
Traversal engine, which this query treats as a black box, so they are an
opaque `reprOf` parameter here. -/

/-- `await_targets_for_obj.at(addr)`: association-list lookup. `none` models
the `std::out_of_range` caught by `print_entry`. -/
def graphLookup : List (Nat × List Nat) → Nat → Option (List Nat)
  | [], _ => none
  | (a, ts) :: rest, addr => if a = addr then some ts else graphLookup rest addr

/-- `roots`: every task/future address that is not the await target of any
other task/future. The source inserts all keys into a `std::set` and erases
all targets, so iteration is in ascending address order without duplicates. -/
def graphRoots (g : List (Nat × List Nat)) : List Nat :=
  (((g.map Prod.fst).dedup).filter
    (fun a => decide (∀ e ∈ g, a ∉ e.2))).insertionSort (· ≤ ·)

/-- The recursive `print_entry` DFS. The C++ recursion terminates because
`seen` grows strictly before every recursive call, bounding the depth by the
number of graph nodes; `fuel` makes that bound explicit. Returns the emitted
stderr lines and the final seen set. `depth` is `t.recursion_depth`.
On revisit (`addr_seen`) it prints `<!seen>@addr` and does not recurse;
otherwise it prints the node's repr, and either recurses into the await
targets or prints the missing-target warning. -/
def printEntry (g : List (Nat × List Nat)) (reprOf : Nat → String) :
    Nat → Nat → Nat → List Nat → (List String × List Nat)
  | 0, _, _, seen => ([], seen)
  | fuel + 1, depth, addr, seen =>
    if addr = 0 then ([], seen)
    else if addr ∈ seen then
      ([String.mk (List.replicate (depth * 2) ' ') ++ "<!seen>@" ++ hex16 addr], seen)
    else
      match graphLookup g addr with
      | none =>
        ([String.mk (List.replicate (depth * 2) ' ') ++ reprOf addr,
          "Warning: await target " ++ hex16 addr ++ " missing from graph"],
         addr :: seen)
      | some targets =>
        let res := targets.foldl
          (fun (acc : List String × List Nat) t =>
            let r := printEntry g reprOf fuel (depth + 1) t acc.2
            (acc.1 ++ r.1, r.2))
          ([], addr :: seen)
        ((String.mk (List.replicate (depth * 2) ' ') ++ reprOf addr) :: res.1, res.2)

/-- The whole `async-task-graph` tree-printing phase: for every root (in
ascending order), run `print_entry` with a fresh seen set and recursion
depth 0. -/
def asyncTaskGraphOutput (g : List (Nat × List Nat)) (reprOf : Nat → String) : List String :=
  (graphRoots g).flatMap (fun a => (printEntry g reprOf (g.length + 1) 0 a []).1)

/-- The pure three-task await cycle of the claim:
T1=0x10 → G1=0x20 → T2=0x30 → G2=0x40 → T3=0x50 → G3=0x60 → T1. -/
def cycleGraph : List (Nat × List Nat) :=
  [(0x10, [0x20]), (0x20, [0x30]), (0x30, [0x40]),
   (0x40, [0x50]), (0x50, [0x60]), (0x60, [0x10])]

/-- The same cycle made reachable from an extra task T0=0x08 that awaits T1
and is awaited by nobody. -/
def reachableCycleGraph : List (Nat × List Nat) :=
  (0x08, [0x10]) :: cycleGraph

end Memtools

/-- Claim C3 counterexample: in the pure six-node cycle every node is the
await target of another node, so `roots` is empty and the query emits no
tree at all — in particular it does not emit a tree rooted at T1 with a
`<!seen>@T1` leaf as the claim states. -/
theorem c3_pure_cycle_counterexample :
    Memtools.asyncTaskGraphOutput Memtools.cycleGraph Memtools.hex16 = [] := by
  rfl

/-- Claim C3 (amended): a DFS revisit of an already-seen address emits
`<!seen>@addr` (at the current indentation) and does not recurse into it —
the seen set is unchanged and no further line is produced. A pure cycle with
no external awaiter has no roots, so the query emits nothing; the cycle is
reported when it is reachable from a root, as in the seven-node graph where
T0 awaits T1: the output then contains the `<!seen>@T1` line at depth 7. -/
theorem c3_async_graph_amended :
    (∀ (g : List (Nat × List Nat)) (reprOf : Nat → String) (fuel depth addr : Nat)
      (seen : List Nat), addr ≠ 0 → addr ∈ seen →
      Memtools.printEntry g reprOf (fuel + 1) depth addr seen
        = ([String.mk (List.replicate (depth * 2) ' ') ++ "<!seen>@" ++ Memtools.hex16 addr],
           seen)) ∧
    Memtools.asyncTaskGraphOutput Memtools.cycleGraph Memtools.hex16 = [] ∧
    (String.mk (List.replicate 14 ' ') ++ "<!seen>@" ++ Memtools.hex16 0x10)
      ∈ Memtools.asyncTaskGraphOutput Memtools.reachableCycleGraph Memtools.hex16 := by
  refine ⟨?_, rfl, by decide⟩
  intro g reprOf fuel depth addr seen h0 hs
  unfold Memtools.printEntry
  rw [if_neg h0, if_pos hs]

/-- Witness for C3 (amended): a concrete revisit of address 0x10 at depth 1
emits exactly the `<!seen>` line and leaves the seen set unchanged. -/
theorem c3_async_graph_amended_witness :
    Memtools.printEntry Memtools.cycleGraph Memtools.hex16 1 1 0x10 [0x10]
      = ([String.mk (List.replicate 2 ' ') ++ "<!seen>@" ++ Memtools.hex16 0x10], [0x10]) :=
  c3_async_graph_amended.1 Memtools.cycleGraph Memtools.hex16 0 1 0x10 [0x10]
    (by decide) (by decide)

namespace Memtools

/-! ## `PyFrameObject::invalid_reason` (Types/PyFrameObject.cc)

The checking logic of `invalid_reason` is in the source; the helpers it
calls live in other translation units (`Environment::invalid_reason`,
`env.get_type`, the decoded code/tuple objects, `host_to_mapped`) and are
supplied as opaque oracles in a `FrameCtx`. The frame state enum values are
the CPython 3.10 ABI values (`FRAME_CREATED = -2` … `FRAME_CLEARED = 4`;
that header is not among the analyzed sources). -/

structure FrameCtx where
  objValidOrNull : Nat → Nat → Bool
  envInvalidReason : Nat → Nat → Option String
  typeAddr : String → Nat
  coVarnames : Nat → Nat
  tupleObSize : Nat → Int
  tupleItem : Nat → Nat → Nat
  existsRange : Nat → Nat → Bool
  frameAddr : Nat
  frameSize : Nat
  objInvalidReason : Nat → Option String

structure Frame where
  f_state : Int
  f_back : Nat
  f_code : Nat
  f_builtins : Nat
  f_globals : Nat
  f_locals : Nat
  f_valuestack : Nat
  f_trace : Nat
  f_gen : Nat
  f_localsplus : Nat → Nat

/-- Truncation of a signed `ssize_t` value to `size_t`. -/
def u64OfInt (i : Int) : Nat := (i.emod (2 ^ 64)).toNat

/-- The byte count passed to `exists_range`:
`sizeof(*this) + varnames.ob_size * sizeof(MappedPtr<PyObject>)`, computed
in wrapping `size_t` arithmetic. -/
def localsplusRangeSize (c : FrameCtx) (n : Int) : Nat :=
  addr64 (c.frameSize + addr64 (u64OfInt n * 8))

/-- The checks of `PyFrameObject::invalid_reason` that precede the `f_code`
block, in source order. -/
def frameHeaderInvalid (c : FrameCtx) (f : Frame) : Option String :=
  if f.f_state < -2 ∨ f.f_state > 4 then some "invalid_f_state"
  else if ¬ c.objValidOrNull f.f_back 8 then some "invalid_f_back"
  else if ¬ c.objValidOrNull f.f_code 8 then some "invalid_f_code"
  else if ¬ c.objValidOrNull f.f_builtins 8 then some "invalid_f_builtins"
  else if ¬ c.objValidOrNull f.f_globals 8 then some "invalid_f_globals"
  else if ¬ c.objValidOrNull f.f_locals 8 then some "invalid_f_locals"
  else if ¬ c.objValidOrNull f.f_valuestack 1 then some "invalid_f_valuestack"
  else if ¬ c.objValidOrNull f.f_trace 1 then some "invalid_f_trace"
  else if ¬ c.objValidOrNull f.f_gen 1 then some "invalid_f_gen"
  else none

/-- The loop `for (z = 0; z < varnames.ob_size; z++)` checking each varname
string and each non-null `f_localsplus[z]`; `count` is the number of
remaining iterations. This is the only part of `invalid_reason` that reads
the trailing array. -/
def frameCheckLocals (c : FrameCtx) (f : Frame) (varnames : Nat) :
    Nat → Nat → Option String
  | 0, _ => none
  | count + 1, z =>
    match c.envInvalidReason (c.tupleItem varnames z) (c.typeAddr "str") with
    | some ir => some ir
    | none =>
      if f.f_localsplus z ≠ 0 then
        match c.objInvalidReason (f.f_localsplus z) with
        | some ir => some ir
        | none => frameCheckLocals c f varnames count (z + 1)
      else frameCheckLocals c f varnames count (z + 1)

/-- `PyFrameObject::invalid_reason`, in source order: header checks, then
for a non-null `f_code`: code validity, `co_varnames` validity, the
`exists_range` check on the frame plus its trailing `f_localsplus` array
(failing with `invalid_f_localsplus_range`), and only then the loop that
reads the trailing array. -/
def frameInvalidReason (c : FrameCtx) (f : Frame) : Option String :=
  match frameHeaderInvalid c f with
  | some r => some r
  | none =>
    if f.f_code ≠ 0 then
      match c.envInvalidReason f.f_code (c.typeAddr "code") with
      | some ir => some ir
      | none =>
        match c.envInvalidReason (c.coVarnames f.f_code) (c.typeAddr "tuple") with
        | some ir => some ir
        | none =>
          if ¬ c.existsRange c.frameAddr
              (localsplusRangeSize c (c.tupleObSize (c.coVarnames f.f_code))) then
            some "invalid_f_localsplus_range"
          else
            frameCheckLocals c f (c.coVarnames f.f_code)
              (c.tupleObSize (c.coVarnames f.f_code)).toNat 0
    else none

end Memtools

/-- Claim C9: for a frame with non-null `f_code`, `invalid_reason` returns
ok only if the trailing `f_localsplus` range check passed: (1) an ok result
implies `exists_range` succeeded on the frame plus
`code.co_varnames.ob_size` trailing pointers; (2) when that range check
fails, the result is `invalid_f_localsplus_range` or an earlier failure
reason (a header-check reason, or the code/varnames validity reasons); and
(3) when the range check fails, the result does not depend on the
trailing-array contents (`f_localsplus`) nor on the oracles that read it
(`tupleItem` item addresses and per-object validity), i.e. the range is
checked before any element of the trailing array is read. -/
theorem c9_frame_localsplus_guard (c c' : Memtools.FrameCtx) (f f' : Memtools.Frame)
    (h1 : c'.objValidOrNull = c.objValidOrNull)
    (h2 : c'.envInvalidReason = c.envInvalidReason)
    (h3 : c'.typeAddr = c.typeAddr)
    (h4 : c'.coVarnames = c.coVarnames)
    (h5 : c'.tupleObSize = c.tupleObSize)
    (h6 : c'.existsRange = c.existsRange)
    (h7 : c'.frameAddr = c.frameAddr)
    (h8 : c'.frameSize = c.frameSize)
    (g1 : f'.f_state = f.f_state) (g2 : f'.f_back = f.f_back)
    (g3 : f'.f_code = f.f_code) (g4 : f'.f_builtins = f.f_builtins)
    (g5 : f'.f_globals = f.f_globals) (g6 : f'.f_locals = f.f_locals)
    (g7 : f'.f_valuestack = f.f_valuestack) (g8 : f'.f_trace = f.f_trace)
    (g9 : f'.f_gen = f.f_gen)
    (hcode : f.f_code ≠ 0) :
    (Memtools.frameInvalidReason c f = none →
      c.existsRange c.frameAddr
        (Memtools.localsplusRangeSize c (c.tupleObSize (c.coVarnames f.f_code))) = true) ∧
    (c.existsRange c.frameAddr
        (Memtools.localsplusRangeSize c (c.tupleObSize (c.coVarnames f.f_code))) = false →
      (Memtools.frameInvalidReason c f = some "invalid_f_localsplus_range" ∨
        (∃ s, Memtools.frameInvalidReason c f = some s ∧
          (Memtools.frameHeaderInvalid c f = some s ∨
            c.envInvalidReason f.f_code (c.typeAddr "code") = some s ∨
            c.envInvalidReason (c.coVarnames f.f_code) (c.typeAddr "tuple") = some s)))) ∧
    (c.existsRange c.frameAddr
        (Memtools.localsplusRangeSize c (c.tupleObSize (c.coVarnames f.f_code))) = false →
      Memtools.frameInvalidReason c' f' = Memtools.frameInvalidReason c f) := by
  have hdr : Memtools.frameHeaderInvalid c' f' = Memtools.frameHeaderInvalid c f := by
    unfold Memtools.frameHeaderInvalid
    rw [h1, g1, g2, g3, g4, g5, g6, g7, g8, g9]
  have hsz : ∀ n, Memtools.localsplusRangeSize c' n = Memtools.localsplusRangeSize c n := by
    intro n
    unfold Memtools.localsplusRangeSize
    rw [h8]
  refine ⟨?_, ?_, ?_⟩
  · intro hok
    unfold Memtools.frameInvalidReason at hok
    cases hh : Memtools.frameHeaderInvalid c f with
    | some r =>
      rw [hh] at hok
      exact absurd hok (by simp)
    | none =>
      rw [hh] at hok
      dsimp only at hok
      rw [if_pos hcode] at hok
      cases hc1 : c.envInvalidReason f.f_code (c.typeAddr "code") with
      | some r =>
        rw [hc1] at hok
        exact absurd hok (by simp)
      | none =>
        rw [hc1] at hok
        dsimp only at hok
        cases hc2 : c.envInvalidReason (c.coVarnames f.f_code) (c.typeAddr "tuple") with
        | some r =>
          rw [hc2] at hok
          exact absurd hok (by simp)
        | none =>
          rw [hc2] at hok
          dsimp only at hok
          by_cases hrange : c.existsRange c.frameAddr
              (Memtools.localsplusRangeSize c (c.tupleObSize (c.coVarnames f.f_code))) = true
          · exact hrange
          · rw [if_pos (by simpa using hrange)] at hok
            exact absurd hok (by simp)
  · intro hrange
    unfold Memtools.frameInvalidReason
    cases hh : Memtools.frameHeaderInvalid c f with
    | some r =>
      right
      exact ⟨r, rfl, Or.inl rfl⟩
    | none =>
      dsimp only
      rw [if_pos hcode]
      cases hc1 : c.envInvalidReason f.f_code (c.typeAddr "code") with
      | some r =>
        right
        exact ⟨r, rfl, Or.inr (Or.inl rfl)⟩
      | none =>
        dsimp only
        cases hc2 : c.envInvalidReason (c.coVarnames f.f_code) (c.typeAddr "tuple") with
        | some r =>
          right
          exact ⟨r, rfl, Or.inr (Or.inr rfl)⟩
        | none =>
          dsimp only
          left
          rw [if_pos (by simp [hrange])]
  · intro hrange
    have hcode2 : f'.f_code ≠ 0 := by
      rw [g3]
      exact hcode
    unfold Memtools.frameInvalidReason
    rw [hdr]
    cases hh : Memtools.frameHeaderInvalid c f with
    | some r => rfl
    | none =>
      dsimp only
      rw [if_pos hcode2, if_pos hcode, h2, h3, g3, h4, h5, h6, h7, hsz]
      cases hc1 : c.envInvalidReason f.f_code (c.typeAddr "code") with
      | some r => rfl
      | none =>
        dsimp only
        cases hc2 : c.envInvalidReason (c.coVarnames f.f_code) (c.typeAddr "tuple") with
        | some r => rfl
        | none =>
          dsimp only
          rw [if_pos (by simp [hrange]), if_pos (by simp [hrange])]

namespace Memtools

/-- A concrete frame context whose `exists_range` always fails, used by the
C9 witness. -/
def frameCtxA : FrameCtx :=
  ⟨fun _ _ => true, fun _ _ => none, fun _ => 1, fun _ => 2, fun _ => 3,
   fun _ _ => 5, fun _ _ => false, 0x100, 0x78, fun _ => none⟩

/-- `frameCtxA` with different trailing-array oracles (item addresses and
per-object validity), used to show the result ignores them. -/
def frameCtxB : FrameCtx :=
  ⟨fun _ _ => true, fun _ _ => none, fun _ => 1, fun _ => 2, fun _ => 3,
   fun _ _ => 999, fun _ _ => false, 0x100, 0x78, fun _ => some "bad"⟩

/-- A concrete frame with non-null `f_code`, used by the C9 witness. -/
def frameA : Frame := ⟨0, 0, 0x40, 0, 0, 0, 0, 0, 0, fun _ => 0⟩

/-- `frameA` with different trailing-array contents. -/
def frameB : Frame := ⟨0, 0, 0x40, 0, 0, 0, 0, 0, 0, fun _ => 7⟩

end Memtools

/-- Witness for C9: on a concrete frame whose trailing-range check fails,
`invalid_reason` is an earlier reason or `invalid_f_localsplus_range`, and
the result is unchanged under arbitrary trailing-array contents and
oracles. -/
theorem c9_frame_localsplus_guard_witness :
    (Memtools.frameInvalidReason Memtools.frameCtxA Memtools.frameA
        = some "invalid_f_localsplus_range" ∨
      (∃ s, Memtools.frameInvalidReason Memtools.frameCtxA Memtools.frameA = some s ∧
        (Memtools.frameHeaderInvalid Memtools.frameCtxA Memtools.frameA = some s ∨
          Memtools.frameCtxA.envInvalidReason Memtools.frameA.f_code
            (Memtools.frameCtxA.typeAddr "code") = some s ∨
          Memtools.frameCtxA.envInvalidReason
            (Memtools.frameCtxA.coVarnames Memtools.frameA.f_code)
            (Memtools.frameCtxA.typeAddr "tuple") = some s))) ∧
    Memtools.frameInvalidReason Memtools.frameCtxB Memtools.frameB
      = Memtools.frameInvalidReason Memtools.frameCtxA Memtools.frameA := by
  have t := c9_frame_localsplus_guard Memtools.frameCtxA Memtools.frameCtxB
    Memtools.frameA Memtools.frameB rfl rfl rfl rfl rfl rfl rfl rfl rfl rfl rfl rfl
    rfl rfl rfl rfl rfl (by decide)
  exact ⟨t.2.1 rfl, t.2.2 rfl⟩

/-!
## C10: the container-repr cycle guard (`PySetObject::repr`)

`PySetObject::repr` (Types/PySetObject.cc) renders a set. The object graph
of sets is modelled as an association list from a set's mapped address to
the list of its non-null item addresses (`PySetObject::get_items`). The
`Traversal` class itself is absent from the sources; its pieces used by
`repr` are modelled from the spec, as noted on each definition.
-/

namespace Memtools

/-- Modelled from the spec: `Traversal::recursion_allowed` — composite reprs
short-circuit when `recursion_depth > max_recursion_depth`, so recursion is
allowed when `recursion_depth ≤ max_recursion_depth` (`max_recursion_depth`
is a signed option value). -/
def recursionAllowed (depth : Nat) (maxDepth : Int) : Bool :=
  decide ((depth : Int) ≤ maxDepth)

/-- Lexicographic `operator<` / `operator<=` of `std::string` on the
rendered entries (code-point order; the rendered strings are ASCII, where
code-point order and byte order agree). -/
def lexLe : List Char → List Char → Bool
  | [], _ => true
  | _ :: _, [] => false
  | a :: as, b :: bs =>
    if a.toNat < b.toNat then true
    else if b.toNat < a.toNat then false
    else lexLe as bs

/-- `std::string` comparison on the character sequences. -/
def strLe (a b : String) : Bool := lexLe a.data b.data

/-- Sorted insertion under `strLe`, the building block of `sortStrings`. -/
def orderedInsertStr (x : String) : List String → List String
  | [] => [x]
  | y :: ys => if strLe x y then x :: y :: ys else y :: orderedInsertStr x ys

/-- `sort(repr_entries.begin(), repr_entries.end())`: sorting the rendered
entries in `std::string` order (modelled as insertion sort, which produces
the same sorted sequence). -/
def sortStrings : List String → List String
  | [] => []
  | x :: xs => orderedInsertStr x (sortStrings xs)

/-- The formatting tail of `PySetObject::repr`, applied to the rendered
`repr_entries` and `has_extra` after the item loop: zero entries render as
`set()`, exactly one as `{e}`, two or more are sorted and rendered one per
line. `depth` is `t.recursion_depth` with the scoped `t.indent()` already
applied (the indent is still in scope while `ret` is built), so entry lines
are indented by `depth * 2` spaces and the closing brace by
`(depth - 1) * 2`. -/
def formatSetEntries (depth : Nat) (entries : List String) (hasExtra : Bool) : String :=
  match entries with
  | [] => "set()"
  | [e] => "\x7b" ++ e ++ "\x7d"
  | es =>
    "\x7b\n"
      ++ String.join ((sortStrings es).map
          (fun e => String.mk (List.replicate (depth * 2) ' ') ++ e ++ ",\n"))
      ++ (if hasExtra then String.mk (List.replicate (depth * 2) ' ') ++ "...\n" else "")
      ++ String.mk (List.replicate ((depth - 1) * 2) ' ') ++ "\x7d"

/-- `PySetObject::repr` over the set graph `g`, in the source's branch
order: `t.check_valid(*this)` (modelled: the address decodes to a valid set
exactly when it is a key of `g`, otherwise the invalid reason renders as
`<set !invalid>`), then `t.recursion_allowed()`, then `t.cycle_guard(this)`.
The cycle guard is modelled from the spec: `open_` is the set of
currently-open addresses; a scoped entry is acquired for the set's own
address, so items are rendered against `addr :: open_`, and the entry is
released on scope exit — sibling subtrees are rendered against the original
`open_` again. The item loop appends `t.repr(item)` and breaks once
`repr_entries.size()` reaches `t.max_entries` (when non-negative), which
renders exactly the first `max_entries` items in order and sets `has_extra`
exactly when items remain. `fuel` makes the C++ recursion depth explicit;
the C10 theorem shows the result is fuel-independent once `fuel` exceeds
the number of sets not yet in `open_`, which is the termination bound of
the C++ recursion. -/
def setRepr (g : List (Nat × List Nat)) (maxDepth maxEntries : Int) :
    Nat → Nat → List Nat → Nat → String
  | 0, _, _, _ => "<!out_of_fuel>"
  | fuel + 1, depth, open_, addr =>
    match graphLookup g addr with
    | none => "<set !invalid>"
    | some items =>
      if (!recursionAllowed depth maxDepth) then "<set !recursion_depth>"
      else if addr ∈ open_ then "<set !recursive_repr>"
      else
        formatSetEntries (depth + 1)
          ((if 0 ≤ maxEntries then items.take maxEntries.toNat else items).map
            (fun i => setRepr g maxDepth maxEntries fuel (depth + 1) (addr :: open_) i))
          (decide (0 ≤ maxEntries ∧ maxEntries < (items.length : Int)))

/-- The number of sets in the graph not currently open in the cycle guard:
the termination measure of the C++ recursion (each nested `repr` call opens
one more address before recursing). -/
def unopenedCount (g : List (Nat × List Nat)) (open_ : List Nat) : Nat :=
  ((g.map Prod.fst).filter (fun a => decide (a ∉ open_))).length

/-- A set graph with a reference cycle: the set at `0x10` contains itself;
the set at `0x20` is empty and unrelated to the cycle. -/
def selfCycleGraph : List (Nat × List Nat) := [(0x10, [0x10]), (0x20, [])]

/-- A cycle-free diamond: the set at `0x100` contains the sets `0x10` and
`0x20`, both of which contain the set `0x30`. Rendering it exercises the
scoped release of the guard: `0x30` is rendered twice, without a marker. -/
def diamondGraph : List (Nat × List Nat) :=
  [(0x100, [0x10, 0x20]), (0x10, [0x30]), (0x20, [0x30]), (0x30, [])]

/-- A successful `graphLookup` means the address is a key of the graph. -/
theorem graphLookup_mem (g : List (Nat × List Nat)) (addr : Nat) (l : List Nat)
    (h : graphLookup g addr = some l) : addr ∈ g.map Prod.fst := by
  induction g with
  | nil => simp [graphLookup] at h
  | cons e rest ih =>
    obtain ⟨a, ts⟩ := e
    rw [graphLookup] at h
    by_cases ha : a = addr
    · rw [List.map_cons]
      exact ha ▸ List.mem_cons_self _ _
    · rw [if_neg ha] at h
      exact List.mem_cons_of_mem _ (ih h)

/-- Adding a fresh element of a duplicate-free list to the exclusion set
drops the count of non-excluded elements by exactly one. -/
theorem filter_notMem_cons_length (l : List Nat) (x : Nat) (s : List Nat)
    (hnd : l.Nodup) (hx : x ∈ l) (hxs : x ∉ s) :
    (l.filter (fun a => decide (a ∉ x :: s))).length + 1
      = (l.filter (fun a => decide (a ∉ s))).length := by
  induction l with
  | nil => cases hx
  | cons y t ih =>
    rw [List.nodup_cons] at hnd
    by_cases hyx : y = x
    · subst hyx
      rw [List.filter_cons, List.filter_cons]
      have hxs' : y ∉ s := hxs
      rw [show (decide (y ∉ y :: s)) = false by simp,
        show (decide (y ∉ s)) = true by simp [hxs']]
      have ht : t.filter (fun a => decide (a ∉ y :: s))
          = t.filter (fun a => decide (a ∉ s)) := by
        apply List.filter_congr
        intro a ha
        have hay : a ≠ y := fun hh => hnd.1 (hh ▸ ha)
        simp [List.mem_cons, hay]
      rw [ht]
      simp
    · have hxt : x ∈ t := by
        cases hx with
        | head => exact absurd rfl hyx
        | tail _ hm => exact hm
      rw [List.filter_cons, List.filter_cons]
      by_cases hys : y ∈ s
      · rw [show (decide (y ∉ x :: s)) = false by simp [List.mem_cons, hys],
          show (decide (y ∉ s)) = false by simp [hys]]
        exact ih hnd.2 hxt
      · rw [show (decide (y ∉ x :: s)) = true by simp [List.mem_cons, hyx, hys],
          show (decide (y ∉ s)) = true by simp [hys], if_pos rfl, if_pos rfl]
        dsimp only [List.length_cons]
        have := ih hnd.2 hxt
        omega

/-- Opening a not-yet-open set of the graph decrements `unopenedCount` by
exactly one (the graph's keys are duplicate-free). -/
theorem unopenedCount_cons (g : List (Nat × List Nat)) (addr : Nat) (open_ : List Nat)
    (hnd : (g.map Prod.fst).Nodup) (hmem : addr ∈ g.map Prod.fst)
    (hop : addr ∉ open_) :
    unopenedCount g (addr :: open_) + 1 = unopenedCount g open_ :=
  filter_notMem_cons_length _ _ _ hnd hmem hop

/-- Termination of the repr recursion: the rendered string no longer depends
on the fuel once the fuel exceeds the number of sets not yet open in the
cycle guard — every nested call opens one more address, so the C++ recursion
depth is bounded by the number of sets in the graph. -/
theorem setRepr_fuel_congr (g : List (Nat × List Nat)) (maxDepth maxEntries : Int)
    (hnd : (g.map Prod.fst).Nodup) :
    ∀ f1 f2 depth open_ addr,
      unopenedCount g open_ < f1 → unopenedCount g open_ < f2 →
      setRepr g maxDepth maxEntries f1 depth open_ addr
        = setRepr g maxDepth maxEntries f2 depth open_ addr := by
  intro f1
  induction f1 using Nat.strong_induction_on with
  | _ f1 ih =>
    intro f2 depth open_ addr h1 h2
    obtain ⟨a, rfl⟩ : ∃ a, f1 = a + 1 := ⟨f1 - 1, by omega⟩
    obtain ⟨b, rfl⟩ : ∃ b, f2 = b + 1 := ⟨f2 - 1, by omega⟩
    simp only [setRepr]
    cases hglook : graphLookup g addr with
    | none => rfl
    | some items =>
      dsimp only
      by_cases hra : (!recursionAllowed depth maxDepth) = true
      · rw [if_pos hra, if_pos hra]
      · rw [if_neg hra, if_neg hra]
        by_cases hop : addr ∈ open_
        · rw [if_pos hop, if_pos hop]
        · rw [if_neg hop, if_neg hop]
          have hmem := graphLookup_mem g addr items hglook
          have hdec := unopenedCount_cons g addr open_ hnd hmem hop
          congr 1
          apply List.map_congr_left
          intro i hi
          exact ih a (by omega) b (depth + 1) (addr :: open_) i (by omega) (by omega)

end Memtools

/-- C10 counterexample: `selfCycleGraph` contains a reference cycle (the set
at `0x10` contains itself), yet rendering the repr of the object `0x20` of
that graph — an empty set not on the cycle — yields `set()`, which does not
contain the marker `!recursive_repr`. The claim's "rendering a repr of any
object in the graph ... contains the marker at least once" therefore fails:
only renders that actually reach the cycle carry the marker. -/
theorem c10_unreachable_cycle_counterexample :
    (∃ a items, Memtools.graphLookup Memtools.selfCycleGraph a = some items ∧ a ∈ items) ∧
    Memtools.setRepr Memtools.selfCycleGraph 100 (-1) 3 1 [] 0x20 = "set()" ∧
    ¬ ("!recursive_repr".data <:+:
        (Memtools.setRepr Memtools.selfCycleGraph 100 (-1) 3 1 [] 0x20).data) := by
  exact ⟨⟨0x10, [0x10], by decide, by decide⟩, by decide, by decide⟩

/-- C10 (amended): (1) the cycle guard short-circuits — a valid set whose
address is already in the currently-open set renders as
`<set !recursive_repr>` without recursing, at any depth within the allowed
recursion budget; (2) rendering terminates in finite time — the result is
independent of the fuel once it exceeds `unopenedCount`, the number of sets
not yet open, so the C++ recursion depth is bounded by the number of sets in
the graph; (3) rendering the self-containing set of `selfCycleGraph` yields
`{<set !recursive_repr>}`, which (4) contains the marker; and (5) the guard
entry is released on scope exit: rendering the cycle-free `diamondGraph`,
whose innermost set is reached twice via two sibling sets, produces no
marker (a guard entry leaking past its scope would mark the second visit). -/
theorem c10_repr_cycle_amended :
    (∀ (g : List (Nat × List Nat)) (maxDepth maxEntries : Int)
        (fuel depth : Nat) (open_ : List Nat) (addr : Nat) (items : List Nat),
      Memtools.graphLookup g addr = some items →
      Memtools.recursionAllowed depth maxDepth = true →
      addr ∈ open_ →
      Memtools.setRepr g maxDepth maxEntries (fuel + 1) depth open_ addr
        = "<set !recursive_repr>") ∧
    (∀ (g : List (Nat × List Nat)) (maxDepth maxEntries : Int)
        (depth addr fuel : Nat),
      (g.map Prod.fst).Nodup →
      Memtools.unopenedCount g [] < fuel →
      Memtools.setRepr g maxDepth maxEntries fuel depth [] addr
        = Memtools.setRepr g maxDepth maxEntries
            (Memtools.unopenedCount g [] + 1) depth [] addr) ∧
    Memtools.setRepr Memtools.selfCycleGraph 100 (-1) 3 1 [] 0x10
      = "{<set !recursive_repr>}" ∧
    ("!recursive_repr".data <:+:
      (Memtools.setRepr Memtools.selfCycleGraph 100 (-1) 3 1 [] 0x10).data) ∧
    ¬ ("!recursive_repr".data <:+:
        (Memtools.setRepr Memtools.diamondGraph 100 (-1) 5 1 [] 0x100).data) := by
  refine ⟨?_, ?_, by decide, by decide, by decide⟩
  · intro g maxDepth maxEntries fuel depth open_ addr items hlook hra hopen
    simp only [Memtools.setRepr, hlook]
    rw [if_neg (by simp [hra]), if_pos hopen]
  · intro g maxDepth maxEntries depth addr fuel hnd hf
    exact Memtools.setRepr_fuel_congr g maxDepth maxEntries hnd fuel
      (Memtools.unopenedCount g [] + 1) depth [] addr hf (by omega)

/-- Witness for C10: the guard short-circuit and the fuel-independence of
the render, at concrete inputs on `selfCycleGraph`. -/
theorem c10_repr_cycle_amended_witness :
    Memtools.setRepr Memtools.selfCycleGraph 100 (-1) 7 1 [0x10] 0x10
      = "<set !recursive_repr>" ∧
    Memtools.setRepr Memtools.selfCycleGraph 100 (-1) 9 1 [] 0x20
      = Memtools.setRepr Memtools.selfCycleGraph 100 (-1)
          (Memtools.unopenedCount Memtools.selfCycleGraph [] + 1) 1 [] 0x20 := by
  exact ⟨c10_repr_cycle_amended.1 Memtools.selfCycleGraph 100 (-1) 6 1 [0x10] 0x10
      [0x10] (by decide) (by decide) (by decide),
    c10_repr_cycle_amended.2.1 Memtools.selfCycleGraph 100 (-1) 1 0x20 9
      (by decide) (by decide)⟩
